import Mathlib

/-!
The aggregation and serialization of `valhalla_build_statistics`

A shallow embedding of `scripts/valhalla_build_statistics.cc`: the two
`sqlite3_exec` callbacks (`classCallback`, `countryDataCallback`), the two
queries that drive them (`fillClasses`, `fillCountryData`), the serializer
`generateJson` and `main`.

The program leans on three libraries whose code is not part of the repository:
the C++ stream library (`iss >> tok`, `float` arithmetic), `boost::format`
(`%.2f`) and SQLite (`sqlite3_exec`).  The float operations are a parameter
`FloatLib` of every function that uses them, so the theorems hold for whatever
the platform's library does; `ieee` is the instance used to evaluate the
functions on concrete inputs (IEEE-754 binary32, round to nearest even).
-/

namespace Valhalla

/-! ## The float operations the program takes from its libraries -/

/-- The operations on `float` that the program uses. -/
structure FloatLib (F : Type) where
  /-- The value of `float sum = 0`. -/
  zero : F
  /-- The sum computed by `sum += tok`. -/
  add : F → F → F
  /-- The conversion `num_get<char>::get` that `iss >> tok` runs once the stream's
  sentry has skipped white space and found the character `c` followed by `cs`:
  `none` when it sets failbit, otherwise the value read and the number of
  characters of `cs` it leaves unread (it has consumed `c`). -/
  numGet : Char → List Char → Option (F × Nat)
  /-- The text `boost::format` substitutes for a directive `%.2f`. -/
  fixed2 : F → String

/-- The white space of the classic locale, which the sentry of `operator>>` skips. -/
def isSpace (c : Char) : Bool :=
  c = ' ' || c = '\t' || c = '\n' || c = '\x0b' || c = '\x0c' || c = '\r'

/-- One `iss >> tok`: skip white space, then convert.  `none` is a stream left in
a failed state (end of input, or no float at the position); otherwise the value
and the rest of the stream. -/
def extract {F : Type} (L : FloatLib F) (s : List Char) : Option (F × List Char) :=
  match s.dropWhile isSpace with
  | [] => none
  | c :: cs =>
    match L.numGet c cs with
    | none => none
    | some (v, unread) => some (v, cs.drop (cs.length - unread))

/-- The loop `while (iss >> tok) { classData->push_back(tok); sum += tok; }`,
started with `classData` and `sum`.  Every successful extraction consumes a
character, so a fuel of the stream's length is never used up. -/
def readLoop {F : Type} (L : FloatLib F) :
    Nat → List Char → List F → F → List F × F
  | 0, _, classData, sum => (classData, sum)
  | fuel + 1, iss, classData, sum =>
    match extract L iss with
    | none => (classData, sum)
    | some (tok, rest) => readLoop L fuel rest (classData ++ [tok]) (L.add sum tok)

/-! ## The callbacks -/

/-- One invocation of a `sqlite3_exec` callback: cell `i` pairs `colName[i]` with
`argv[i]`, which is `none` for SQL NULL (a null pointer); `argc` is the length. -/
abbrev Row := List (String × Option String)

/-- The pair of output vectors `countryDataCallback` receives through `void*`. -/
structure DataPair (F : Type) where
  countries : List String
  data : List (List F)
  deriving DecidableEq

/-- `classCallback`: push the name of every column but the first, then "total";
the value returned to SQLite is 0. -/
def classCallback (cat : List String) (row : Row) : Int × List String :=
  let cat := (row.drop 1).foldl (fun cat cell => cat ++ [cell.1]) cat
  (0, cat ++ ["total"])

/-- The loop `for (i = 1; i < argc; ++i) { line += argv[i]; line += " "; }` over
the cells from index 1 on.  Appending a null `char*` is undefined: `none`. -/
def buildLine : List (String × Option String) → String → Option String
  | [], line => some line
  | (_, none) :: _, _ => none
  | (_, some a) :: rest, line => buildLine rest (line ++ a ++ " ")

/-- `countryDataCallback`: `none` where the C++ is undefined (no `argv[0]`, or a
null `argv[i]` turned into a `std::string`); otherwise the value returned to
SQLite, which is 0, and the two vectors after the call. -/
def countryDataCallback {F : Type} (L : FloatLib F) (p : DataPair F) (row : Row) :
    Option (Int × DataPair F) :=
  match row with
  | [] => none
  | (_, none) :: _ => none
  | (_, some code) :: rest =>
    let countries := p.countries ++ [code]
    match buildLine rest "" with
    | none => none
    | some line =>
      let iss := line.toList
      let (classData, sum) := readLoop L iss.length iss [] L.zero
      let classData := classData ++ [sum]
      some (0, { countries := countries, data := p.data ++ [classData] })

/-! ## The queries -/

/-- A collating sequence of SQLite: the rule by which it compares two texts.
These three are the ones SQLite has built in; the program registers no other. -/
inductive Collation where
  | binary
  | nocase
  | rtrim
  deriving DecidableEq

/-- The table `countrydata`: its column names, and one list of values per stored
row (`none` is SQL NULL, `some t` the text `sqlite3_exec` hands to the callback,
which holds no zero byte).  A value that is not NULL is stored as TEXT, unless its
place (row, column) is listed in `blobs`: then it is stored as BLOB.  A number
is held as the text of the number: the query compares a value of the column
`isocode` with the string `''`, from which a number is as distinct as its text
is.  `collation` is the collating sequence declared for the column `isocode`,
which is BINARY when none is declared. -/
structure Table where
  colNames : List String
  rows : List (List (Option String))
  collation : Collation := Collation.binary
  blobs : List (Nat × Nat) := []

/-- The database file: the table `countrydata`, when it has one. -/
structure Db where
  countrydata : Option Table

def SQLITE_OK : Int := 0

def SQLITE_ERROR : Int := 1

def SQLITE_ABORT : Int := 4

/-- The callback's view of a stored row: the column names paired with its values. -/
def mkRow (t : Table) (vals : List (Option String)) : Row :=
  t.colNames.zip vals

/-- The row loop of `sqlite3_exec`: call the callback on each result row in order;
a non-zero return value aborts the query with `SQLITE_ABORT`.  `none` when a
call is undefined. -/
def execRows {σ : Type} (callback : σ → Row → Option (Int × σ)) :
    List Row → σ → Option (Int × σ)
  | [], st => some (SQLITE_OK, st)
  | row :: rows, st =>
    match callback st row with
    | none => none
    | some (ret, st) =>
      if ret ≠ 0 then some (SQLITE_ABORT, st) else execRows callback rows st

/-- A name with its ASCII letters in lower case: SQLite compares the names of
columns without regard to case. -/
def lowerCase (name : String) : String :=
  String.mk (name.toList.map Char.toLower)

/-- A text without its trailing spaces. -/
def rtrim (text : String) : String :=
  String.mk (text.toList.reverse.dropWhile (fun c => c = ' ')).reverse

/-- The key by which a collating sequence compares a text: BINARY compares the
text itself, NOCASE the text with its ASCII letters in one case, RTRIM the text
without its trailing spaces. -/
def collationKey : Collation → String → String
  | Collation.binary, text => text
  | Collation.nocase, text => lowerCase text
  | Collation.rtrim, text => rtrim text

/-- The operator `IS NOT` of SQLite on two stored values, each given by its text
(`none` is NULL) and by whether it is stored as BLOB.  Two NULLs are not distinct
and a NULL is distinct from every other value; a TEXT and a BLOB are always
distinct; two BLOBs are distinct when their bytes differ; two TEXTs are distinct
when they differ under the collating sequence `coll`. -/
def sqlIsNot (coll : Collation) (a b : Option String × Bool) : Bool :=
  match a.1, b.1 with
  | none, none => false
  | some x, some y =>
    if a.2 != b.2 then true
    else if a.2 then x != y
    else collationKey coll x != collationKey coll y
  | _, _ => true

/-- The position of the first column whose name satisfies `p`. -/
def columnWhere (p : String → Bool) : List String → Option Nat
  | [] => none
  | name :: names => if p name then some 0 else (columnWhere p names).map (fun k => k + 1)

/-- The condition `isocode IS NOT ""` on the stored row number `i` with the values
`vals`.  The left operand is the column named `isocode` (SQL names ignore case).
The right operand `""` is a quoted identifier: SQLite reads it as the column whose
name is the empty string when the table has one, and only otherwise as the string
`''`.  The comparison uses the collating sequence of the left operand.  When the
right operand is a column, the two columns are taken to be declared without a
type or as TEXT, so that no value is converted before the comparison.  A table
without a column `isocode` makes the query fail: no row is returned, and
`fillCountryData` reports the error. -/
def isocodeIsNot (t : Table) (i : Nat) (vals : List (Option String)) : Bool :=
  match columnWhere (fun name => lowerCase name = "isocode") t.colNames with
  | none => false
  | some k =>
    let right : Option String × Bool :=
      match columnWhere (fun name => name = "") t.colNames with
      | some m => ((vals[m]?).join, decide ((i, m) ∈ t.blobs))
      | none => (some "", false)
    sqlIsNot t.collation ((vals[k]?).join, decide ((i, k) ∈ t.blobs)) right

/-- The rows `SELECT * FROM countrydata LIMIT 1` returns. -/
def selectLimit1 (t : Table) : List Row :=
  (t.rows.take 1).map (mkRow t)

/-- The rows `SELECT * FROM countrydata WHERE isocode IS NOT ""` returns. -/
def selectWhereIsocode (t : Table) : List Row :=
  (t.rows.enum.filter (fun ir => isocodeIsNot t ir.1 ir.2)).map (fun ir => mkRow t ir.2)

/-- What a function of the program does: return a value, or call `exit`. -/
inductive Step (α : Type) where
  | ret : α → Step α
  | exit : Int → Step α
  deriving DecidableEq

/-- `checkDBResponse`: return normally when `rc` is `SQLITE_OK`, else print the
error and `exit(0)`. -/
def checkDBResponse (rc : Int) : Step Unit :=
  if rc ≠ SQLITE_OK then Step.exit 0 else Step.ret ()

/-- `fillClasses`: run `SELECT * FROM countrydata LIMIT 1` with `classCallback`
on `classes`, then `checkDBResponse`.  A database without the table makes
`sqlite3_exec` return `SQLITE_ERROR`. -/
def fillClasses (db : Db) (classes : List String) : Option (Step (List String)) :=
  let res : Option (Int × List String) :=
    match db.countrydata with
    | none => some (SQLITE_ERROR, classes)
    | some t => execRows (fun cat row => some (classCallback cat row)) (selectLimit1 t) classes
  match res with
  | none => none
  | some (rc, classes) =>
    match checkDBResponse rc with
    | Step.exit status => some (Step.exit status)
    | Step.ret () => some (Step.ret classes)

/-- `fillCountryData`: run `SELECT * FROM countrydata WHERE isocode IS NOT ""`
with `countryDataCallback` on the pair of `countries` and `data`, then
`checkDBResponse`.  A database without the table, or a table without a column
`isocode`, makes `sqlite3_exec` return `SQLITE_ERROR`. -/
def fillCountryData {F : Type} (L : FloatLib F) (db : Db) (p : DataPair F) :
    Option (Step (DataPair F)) :=
  let res : Option (Int × DataPair F) :=
    match db.countrydata with
    | none => some (SQLITE_ERROR, p)
    | some t =>
      if t.colNames.any (fun name => lowerCase name = "isocode") then
        execRows (countryDataCallback L) (selectWhereIsocode t) p
      else some (SQLITE_ERROR, p)
  match res with
  | none => none
  | some (rc, p) =>
    match checkDBResponse rc with
    | Step.exit status => some (Step.exit status)
    | Step.ret () => some (Step.ret p)

/-! ## The serializer -/

/-- The inner loop of `generateJson` from index `j` on, over the classes not yet
written: `str << boost::format(fmt2) % classes[j] % data[i][j]`, where `fmt2`
starts with ",\n" from the second class on.  Reading `data[i][j]` past the end
of a vector is undefined: `none`. -/
def recordsLoop {F : Type} (L : FloatLib F) (data : List (List F)) (i : Nat) :
    List String → Nat → String → Option String
  | [], _, str => some str
  | cls :: classes, j, str =>
    match data[i]? with
    | none => none
    | some record =>
      match record[j]? with
      | none => none
      | some value =>
        let fmt2 := if j ≠ 0 then ",\n    \"" else "    \""
        recordsLoop L data i classes (j + 1) (str ++ (fmt2 ++ cls ++ "\": " ++ L.fixed2 value))

/-- The outer loop of `generateJson` from index `i` on, over the countries not yet
written; `fmt` starts with ",\n" from the second country on. -/
def countriesLoop {F : Type} (L : FloatLib F) (data : List (List F)) (classes : List String) :
    List String → Nat → String → Option String
  | [], _, str => some str
  | country :: countries, i, str =>
    let fmt := if i ≠ 0 then ",\n\"" else "\""
    let str := str ++ (fmt ++ country ++ "\" : \x7b\n")
    let str := str ++ ("  \"name\" : \"" ++ country ++ "\",\n")
    let str := str ++ "  \"records\": \x7b\n"
    match recordsLoop L data i classes 0 str with
    | none => none
    | some str => countriesLoop L data classes countries (i + 1) (str ++ "\n  \x7d\x7d")

/-- The text `generateJson` builds in `str`. -/
def generateJsonStr {F : Type} (L : FloatLib F) (countries : List String)
    (data : List (List F)) (classes : List String) : Option String :=
  match countriesLoop L data classes countries 0 "\x7b\n" with
  | none => none
  | some str => some (str ++ "\n\x7d")

/-- `generateJson`: the content written to `road_data.json`, which is the text
built in `str` followed by the newline of `std::endl`. -/
def generateJson {F : Type} (L : FloatLib F) (countries : List String)
    (data : List (List F)) (classes : List String) : Option String :=
  (generateJsonStr L countries data classes).map (fun str => str ++ "\n")

/-! ## The float operations of the platform

`float` is IEEE-754 binary32 with round to nearest, ties to even; `iss >> tok`
is the `num_get` of libstdc++ in the classic locale, which gathers the characters
of a decimal floating literal and converts them with a correctly rounding
`strtof`; `%.2f` is the correctly rounding conversion of the C library. -/

/-- A binary32 value.  Every finite one is a whole multiple of `2^-149`:
`finite neg mag` is `(-1)^neg * mag * 2^-149`, where `mag` has at most 277 binary
digits, of which at most the leading 24 are not zero. -/
inductive Float32 where
  | finite (neg : Bool) (mag : Nat)
  | inf (neg : Bool)
  | nan
  deriving DecidableEq

/-- The integer nearest to `num / den`, a tie going to the even one. -/
def roundHalfEven (num den : Nat) : Nat :=
  let q := num / den
  let r := num % den
  if 2 * r < den then q
  else if den < 2 * r then q + 1
  else if q % 2 = 0 then q
  else q + 1

/-- The number of binary digits of `n`, at most `fuel`. -/
def bitLength : Nat → Nat → Nat
  | 0, _ => 0
  | fuel + 1, n => if n = 0 then 0 else bitLength fuel (n / 2) + 1

/-- The multiple of `2^-149` with 24 significant bits nearest to `num / den`
(both counted in units of `2^-149`), ties to even; a result of more than 277
binary digits, which is `2^277` or more, is an overflow. -/
def roundBinary32 (num den : Nat) : Nat :=
  let q := num / den
  let ulp := 2 ^ (bitLength (q + 1) q - 24)
  roundHalfEven num (den * ulp) * ulp

/-- The float of sign `neg` and rounded magnitude `mag`: infinite on overflow. -/
def Float32.ofRounded (neg : Bool) (mag : Nat) : Float32 :=
  if bitLength (mag + 1) mag ≤ 277 then Float32.finite neg mag else Float32.inf neg

/-- Binary32 addition. -/
def Float32.add : Float32 → Float32 → Float32
  | Float32.nan, _ => Float32.nan
  | _, Float32.nan => Float32.nan
  | Float32.inf a, Float32.inf b => if a = b then Float32.inf a else Float32.nan
  | Float32.inf a, Float32.finite _ _ => Float32.inf a
  | Float32.finite _ _, Float32.inf b => Float32.inf b
  | Float32.finite na ka, Float32.finite nb kb =>
    if na = nb then Float32.ofRounded na (roundBinary32 (ka + kb) 1)
    else if ka = kb then Float32.finite false 0
    else if kb < ka then Float32.ofRounded na (roundBinary32 (ka - kb) 1)
    else Float32.ofRounded nb (roundBinary32 (kb - ka) 1)

/-- The main loop of `_M_extract_float`: gather digits, one decimal point before
any exponent, and one exponent mark (after a digit) with its optional sign, up
to the first character that fits none of these.  `afterE` says that the
character before was the exponent mark, the one place where a sign is taken.
Returns the gathered text and the characters left unread. -/
def scanDigits : List Char → Bool → Bool → Bool → Bool → List Char → List Char × List Char
  | [], _, _, _, _, xtrc => (xtrc, [])
  | c :: cs, foundMantissa, foundDec, foundSci, afterE, xtrc =>
    if afterE && (c = '+' || c = '-') then
      scanDigits cs foundMantissa foundDec foundSci false (xtrc ++ [c])
    else if c.isDigit then scanDigits cs true foundDec foundSci false (xtrc ++ [c])
    else if c = '.' && !foundDec && !foundSci then
      scanDigits cs foundMantissa true foundSci false (xtrc ++ ['.'])
    else if (c = 'e' || c = 'E') && !foundSci && foundMantissa then
      scanDigits cs foundMantissa foundDec true true (xtrc ++ ['e'])
    else (xtrc, c :: cs)

/-- The whole of `_M_extract_float` in the classic locale: an optional sign, the
leading zeros (of which one is kept), then `scanDigits`. -/
def scanFloat (s : List Char) : List Char × List Char :=
  let (sign, s1) :=
    match s with
    | c :: cs => if c = '+' || c = '-' then ([c], cs) else ([], s)
    | [] => ([], s)
  let zeros : Bool :=
    match s1 with
    | c :: _ => c = '0'
    | [] => false
  let s2 := s1.dropWhile (fun c => c = '0')
  scanDigits s2 zeros false false false (if zeros then sign ++ ['0'] else sign)

/-- The part of `_M_extract_float` that follows the sign: the leading zeros, then
the main loop, started with the sign as the gathered text. -/
def scanAfterSign (sign s1 : List Char) : List Char × List Char :=
  let zeros : Bool :=
    match s1 with
    | c :: _ => c = '0'
    | [] => false
  let s2 := s1.dropWhile (fun c => c = '0')
  scanDigits s2 zeros false false false (if zeros then sign ++ ['0'] else sign)

/-- The number written by a list of decimal digits. -/
def digitsValue (ds : List Char) : Nat :=
  ds.foldl (fun n d => 10 * n + (d.toNat - '0'.toNat)) 0

/-- The conversion `__convert_to_v` of the gathered text: `strtof` must use all
of it (a mantissa with a digit, and a digit after an exponent mark), and a
result that overflows to infinity sets failbit. -/
def convertToFloat (xtrc : List Char) : Option Float32 :=
  let (neg, s1) :=
    match xtrc with
    | '-' :: t => (true, t)
    | '+' :: t => (false, t)
    | _ => (false, xtrc)
  let intPart := s1.takeWhile Char.isDigit
  let s2 := s1.dropWhile Char.isDigit
  let (fracPart, s3) :=
    match s2 with
    | '.' :: t => (t.takeWhile Char.isDigit, t.dropWhile Char.isDigit)
    | _ => ([], s2)
  let mantissa := digitsValue (intPart ++ fracPart)
  let expo : Option Int :=
    match s3 with
    | [] => some 0
    | 'e' :: '-' :: t => if t ≠ [] && t.all Char.isDigit then some (-(digitsValue t : Int)) else none
    | 'e' :: '+' :: t => if t ≠ [] && t.all Char.isDigit then some (digitsValue t : Int) else none
    | 'e' :: t => if t ≠ [] && t.all Char.isDigit then some (digitsValue t : Int) else none
    | _ => none
  if intPart ++ fracPart = [] then none
  else
    match expo with
    | none => none
    | some e =>
      let e10 := e - fracPart.length
      let mag :=
        if 0 ≤ e10 then roundBinary32 (mantissa * 10 ^ e10.toNat * 2 ^ 149) 1
        else roundBinary32 (mantissa * 2 ^ 149) (10 ^ (-e10).toNat)
      if bitLength (mag + 1) mag ≤ 277 then some (Float32.finite neg mag) else none

/-- The `num_get` conversion at a stream that starts with `c :: cs`. -/
def ieeeNumGet (c : Char) (cs : List Char) : Option (Float32 × Nat) :=
  let (xtrc, rest) := scanFloat (c :: cs)
  match convertToFloat xtrc with
  | none => none
  | some v => some (v, rest.length)

/-- The text of `%.2f`: the value rounded to a whole number of hundredths, ties
to even, written with its sign, its integer part and two decimals. -/
def ieeeFixed2 : Float32 → String
  | Float32.finite neg mag =>
    let n := roundHalfEven (mag * 100) (2 ^ 149)
    (if neg then "-" else "") ++ Nat.repr (n / 100) ++ "." ++
      Nat.repr (n % 100 / 10) ++ Nat.repr (n % 10)
  | Float32.inf neg => if neg then "-inf" else "inf"
  | Float32.nan => "nan"

/-- The float operations of the platform. -/
def ieee : FloatLib Float32 where
  zero := Float32.finite false 0
  add := Float32.add
  numGet := ieeeNumGet
  fixed2 := ieeeFixed2

/-- The float a decimal literal denotes (`none` when it is not one or overflows). -/
def Float32.ofLiteral (s : String) : Option Float32 :=
  convertToFloat s.toList

/-! ## The program -/

/-- What a run of the program leaves behind: the exit status of the process, the
content of `road_data.json` when `generateJson` wrote it, and whether
`sqlite3_close` was called. -/
structure Run where
  status : Int
  report : Option String
  closed : Bool
  deriving DecidableEq

/-- `main`, given the command line (`argv`, of length `argc`) and what
`sqlite3_open` finds at a path (`none`: the open fails).  `none` when the run
is undefined. -/
def main {F : Type} (L : FloatLib F) (argv : List String) (openDb : String → Option Db) :
    Option Run :=
  match argv with
  | [] => some { status := 0, report := none, closed := false }
  | [_] => some { status := 0, report := none, closed := false }
  | _ :: path :: _ =>
    match openDb path with
    | none => some { status := 0, report := none, closed := false }
    | some db =>
      match fillClasses db [] with
      | none => none
      | some (Step.exit status) => some { status := status, report := none, closed := false }
      | some (Step.ret classes) =>
        match fillCountryData L db { countries := [], data := [] } with
        | none => none
        | some (Step.exit status) => some { status := status, report := none, closed := false }
        | some (Step.ret p) =>
          match generateJson L p.countries p.data classes with
          | none => none
          | some text => some { status := 0, report := some text, closed := true }

/-- The call of `sqlite3_exec` in `fillClasses`: its return code and `classes`
after it. -/
def execClassQuery (db : Db) (classes : List String) : Option (Int × List String) :=
  match db.countrydata with
  | none => some (SQLITE_ERROR, classes)
  | some t => execRows (fun cat row => some (classCallback cat row)) (selectLimit1 t) classes

/-- The call of `sqlite3_exec` in `fillCountryData`: its return code and the pair
of vectors after it. -/
def execCountryQuery {F : Type} (L : FloatLib F) (db : Db) (p : DataPair F) :
    Option (Int × DataPair F) :=
  match db.countrydata with
  | none => some (SQLITE_ERROR, p)
  | some t =>
    if t.colNames.any (fun name => lowerCase name = "isocode") then
      execRows (countryDataCallback L) (selectWhereIsocode t) p
    else some (SQLITE_ERROR, p)

/-! ## The vocabulary of the specification -/

/-- Why a run ends without a report. -/
inductive Failure where
  | noInputPath
  | openFailed
  | schemaQueryFailed
  | dataQueryFailed
  deriving DecidableEq

/-- The failure a run ends by, if any: no input path on the command line, a
datastore that does not open, or a query whose return code is not `SQLITE_OK`. -/
def failureOf {F : Type} (L : FloatLib F) (argv : List String) (openDb : String → Option Db) :
    Option Failure :=
  match argv with
  | [] => some Failure.noInputPath
  | [_] => some Failure.noInputPath
  | _ :: path :: _ =>
    match openDb path with
    | none => some Failure.openFailed
    | some db =>
      match execClassQuery db [] with
      | none => none
      | some (rc, _) =>
        if rc ≠ SQLITE_OK then some Failure.schemaQueryFailed
        else
          match execCountryQuery L db { countries := [], data := [] } with
          | none => none
          | some (rc, _) => if rc ≠ SQLITE_OK then some Failure.dataQueryFailed else none

/-- Whether `countryDataCallback` is defined on a row: it has a first cell, and no
cell is NULL. -/
def rowDefined (row : Row) : Bool :=
  !row.isEmpty && row.all (fun cell => cell.2.isSome)

/-- The country code of a row: the text of its first cell. -/
def codeOf (row : Row) : Option String :=
  match row with
  | (_, some code) :: _ => some code
  | _ => none

/-- A table of three rows, the second of which has the empty string for code. -/
def tableWithEmptyCode : Table where
  colNames := ["isocode", "Motorway"]
  rows := [[some "US", some "1.5"], [some "", some "3"], [some "CA", some "2"]]

/-- A table of one row whose only numeric field is the empty string. -/
def tableWithEmptyField : Table where
  colNames := ["isocode", "Motorway"]
  rows := [[some "US", some ""]]

/-- A table of two rows that share the code US. -/
def tableWithDuplicate : Table where
  colNames := ["isocode", "Motorway"]
  rows := [[some "US", some "1"], [some "US", some "2"]]

/-- A table with its columns and no row. -/
def tableWithoutRows : Table where
  colNames := ["isocode", "Motorway"]
  rows := []

/-- A table of two class columns. -/
def tableOfTwoClasses : Table where
  colNames := ["isocode", "Motorway", "Trunk"]
  rows := [[some "US", some "1.5", some "1.5"]]

/-- A table of three class columns, the second of which holds a word. -/
def tableWithWord : Table where
  colNames := ["isocode", "Motorway", "Trunk", "Primary"]
  rows := [[some "US", some "1.5", some "abc", some "2"]]

/-- A table whose key column is not named isocode, so that the data query fails. -/
def tableWithoutIsocode : Table where
  colNames := ["code", "Motorway"]
  rows := [[some "US", some "1"]]

/-- A table of one row whose only numeric field holds two tokens. -/
def tableWithTwoTokens : Table where
  colNames := ["isocode", "Motorway"]
  rows := [[some "US", some "1 2"]]

/-- A table of one row whose code is NULL. -/
def tableWithNullCode : Table where
  colNames := ["isocode", "Motorway"]
  rows := [[none, some "1"]]

/-- A table of one row whose numeric field is NULL. -/
def tableWithNullField : Table where
  colNames := ["isocode", "Motorway"]
  rows := [[some "US", none]]

/-- The white space of JSON: space, tab, line feed and carriage return. -/
def jsonSpace (c : Char) : Bool :=
  c = ' ' || c = '\t' || c = '\n' || c = '\r'

/-- Whether a text is an empty JSON object: an opening brace, white space only
and a closing brace. -/
def isEmptyObject (text : String) : Bool :=
  match text.toList with
  | c :: rest => c = '\x7b' && rest.dropWhile jsonSpace = ['\x7d']
  | [] => false

/-- The text of the non-key fields of a row, in column order (NULL has none). -/
def fieldsOf (row : Row) : List String :=
  (row.drop 1).filterMap (fun cell => cell.2)

/-- The non-key fields, each followed by one space, put end to end. -/
def lineOf : List String → String
  | [] => ""
  | field :: fields => field ++ " " ++ lineOf fields

/-- The values successive extractions read from a stream, up to the first one
that fails (at most `fuel` of them). -/
def tokensAux {F : Type} (L : FloatLib F) : Nat → List Char → List F
  | 0, _ => []
  | fuel + 1, s =>
    match extract L s with
    | none => []
    | some (tok, rest) => tok :: tokensAux L fuel rest

/-- The parsed tokens of a text. -/
def tokens {F : Type} (L : FloatLib F) (line : String) : List F :=
  tokensAux L line.length line.toList

/-- The sum of a list of floats, accumulated left to right from 0. -/
def sumFrom0 {F : Type} (L : FloatLib F) (values : List F) : F :=
  values.foldl L.add L.zero

/-- The record of a row: its parsed tokens followed by their sum. -/
def recordOf {F : Type} (L : FloatLib F) (row : Row) : List F :=
  tokens L (lineOf (fieldsOf row)) ++ [sumFrom0 L (tokens L (lineOf (fieldsOf row)))]

/-- A field that is exactly one numeric token of value `v`: an extraction at the
field followed by a space reads `v` and stops at that space. -/
def OneToken {F : Type} (L : FloatLib F) (field : String) (v : F) : Prop :=
  ∀ rest : List Char, extract L (field.toList ++ ' ' :: rest) = some (v, ' ' :: rest)

/-- What a field holds: nothing when it is the empty string, the value `v` when it
is exactly one numeric token of value `v`. -/
def FieldToken {F : Type} (L : FloatLib F) (field : String) (value : Option F) : Prop :=
  match value with
  | none => field = ""
  | some v => OneToken L field v

/-- A field that yields no token: an extraction at the field followed by a space
fails. -/
def NoToken {F : Type} (L : FloatLib F) (field : String) : Prop :=
  ∀ rest : List Char, extract L (field.toList ++ ' ' :: rest) = none

/-- A field that does not start as a number: it has a character that is not white
space, and the first such character is not a digit, a sign or a decimal point. -/
def startsNoNumber (field : String) : Bool :=
  match field.toList.dropWhile isSpace with
  | [] => false
  | c :: _ => !(c.isDigit || c = '+' || c = '-' || c = '.')

/-- A character that is not white space. -/
def notSpace (c : Char) : Bool :=
  !isSpace c

/-- The words of a text, at most `fuel` of them: its runs of characters that are
not white space, in order. -/
def wordsAux : Nat → List Char → List (List Char)
  | 0, _ => []
  | fuel + 1, s =>
    match s.dropWhile isSpace with
    | [] => []
    | c :: cs => (c :: cs.takeWhile notSpace) :: wordsAux fuel (cs.dropWhile notSpace)

/-- The white-space separated token sequence of a text. -/
def words (s : List Char) : List (List Char) :=
  wordsAux s.length s

/-- A place where a word may end: the end of the text, or white space. -/
def atWordEnd (r : List Char) : Bool :=
  match r with
  | [] => true
  | c :: _ => isSpace c

/-- A library whose extraction stops at white space: at a word followed by the
end of the text or by white space, it reads what it reads at the word alone
and leaves unread what it leaves of the word, then what follows. -/
def StopsAtSpace {F : Type} (L : FloatLib F) : Prop :=
  ∀ (c : Char) (cs r : List Char), (∀ d ∈ c :: cs, isSpace d = false) → atWordEnd r = true →
    extract L (c :: cs ++ r) = (extract L (c :: cs)).map (fun res => (res.1, res.2 ++ r))

/-- How many times a text occurs in another, at any position. -/
def occurrences (pattern : List Char) : List Char → Nat
  | [] => if pattern = [] then 1 else 0
  | c :: text =>
    (if pattern.isPrefixOf (c :: text) then 1 else 0) + occurrences pattern text

/-- The number of entries of a document that are keyed by a code: the places
where the opening of an entry of that code stands. -/
def entryCount (document code : String) : Nat :=
  occurrences ("\"" ++ code ++ "\" : \x7b\n").toList document.toList

/-- Whether standard JSON requires a character of a string to be escaped: the
double quote, the backslash and the control characters. -/
def needsEscape (c : Char) : Bool :=
  c = '"' || c = '\\' || c.toNat < 32

/-- One of the sixteen hexadecimal digits. -/
def hexDigit (n : Nat) : Char :=
  if n < 10 then Char.ofNat ('0'.toNat + n) else Char.ofNat ('a'.toNat + (n - 10))

/-- The escape of one character by the standard JSON string rules. -/
def jsonEscapeChar (c : Char) : List Char :=
  if c = '"' then ['\\', '"']
  else if c = '\\' then ['\\', '\\']
  else if c.toNat < 32 then ['\\', 'u', '0', '0', hexDigit (c.toNat / 16), hexDigit (c.toNat % 16)]
  else [c]

/-- The content of the JSON string literal of a text: each character escaped by
the standard JSON string rules. -/
def jsonEscape (text : String) : String :=
  String.mk (text.toList.flatMap jsonEscapeChar)

/-- The items of a list, each but the one of index 0 preceded by ",\n", put end
to end; `j` is the index of the first item of the list. -/
def joinFrom (j : Nat) : List String → String
  | [] => ""
  | item :: items => (if j ≠ 0 then ",\n" else "") ++ item ++ joinFrom (j + 1) items

/-- One line of a country's records: the label, quoted, and the value with two
decimals. -/
def recordLine {F : Type} (L : FloatLib F) (label : String) (value : F) : String :=
  "    \"" ++ label ++ "\": " ++ L.fixed2 value

/-- The entry of one country in the document. -/
def entryText {F : Type} (L : FloatLib F) (labels : List String) (code : String)
    (record : List F) : String :=
  "\"" ++ code ++ "\" : \x7b\n  \"name\" : \"" ++ code ++ "\",\n  \"records\": \x7b\n" ++
    ",\n".intercalate (List.zipWith (recordLine L) labels record) ++ "\n  \x7d\x7d"

/-- The document: the entries of the countries, joined and put in braces. -/
def documentText {F : Type} (L : FloatLib F) (codes : List String) (records : List (List F))
    (labels : List String) : String :=
  "\x7b\n" ++ ",\n".intercalate (List.zipWith (entryText L labels) codes records) ++ "\n\x7d"

/-! ## The schema introspector -/

theorem foldl_pushName (cells : Row) (cat : List String) :
    cells.foldl (fun cat cell => cat ++ [cell.1]) cat = cat ++ cells.map Prod.fst := by
  induction cells generalizing cat with
  | nil => simp
  | cons cell cells ih => simp [ih]

theorem classCallback_eq (cat : List String) (row : Row) :
    classCallback cat row = (0, cat ++ (row.drop 1).map Prod.fst ++ ["total"]) := by
  simp [classCallback, foldl_pushName]

/-- C1: on a row whose column names are `c0 :: cs`, `classCallback` started with no
label returns 0 and leaves exactly `cs` followed by "total": as many labels as
the row has columns, the last one being "total", the first column left out. -/
theorem classCallback_labels (row : Row) (c0 : String) (cs : List String)
    (h : row.map Prod.fst = c0 :: cs) :
    classCallback [] row = (0, cs ++ ["total"]) ∧
      (classCallback [] row).2.length = row.length ∧
      (classCallback [] row).2.getLast? = some "total" := by
  cases row with
  | nil => simp at h
  | cons cell rest =>
    simp only [List.map_cons, List.cons.injEq] at h
    obtain ⟨_, hrest⟩ := h
    subst hrest
    simp [classCallback_eq]

theorem classCallback_labels_witness :
    classCallback [] [("isocode", some "US"), ("Motorway", some "1.5"), ("Trunk", none)] =
      (0, ["Motorway", "Trunk"] ++ ["total"]) ∧
    (classCallback [] [("isocode", some "US"), ("Motorway", some "1.5"), ("Trunk", none)]).2.length =
      [("isocode", some "US"), ("Motorway", some "1.5"), ("Trunk", (none : Option String))].length ∧
    (classCallback [] [("isocode", some "US"), ("Motorway", some "1.5"), ("Trunk", none)]).2.getLast? =
      some "total" :=
  classCallback_labels [("isocode", some "US"), ("Motorway", some "1.5"), ("Trunk", none)]
    "isocode" ["Motorway", "Trunk"] rfl

/-! ## The country aggregator -/

theorem readLoop_eq {F : Type} (L : FloatLib F) (fuel : Nat) (iss : List Char)
    (classData : List F) (sum : F) :
    readLoop L fuel iss classData sum =
      (classData ++ tokensAux L fuel iss, (tokensAux L fuel iss).foldl L.add sum) := by
  induction fuel generalizing iss classData sum with
  | zero => simp [readLoop, tokensAux]
  | succ fuel ih =>
    simp only [readLoop, tokensAux]
    cases hx : extract L iss with
    | none => simp
    | some r =>
      obtain ⟨tok, rest⟩ := r
      simp [ih]

theorem buildLine_eq (cells : List (String × Option String)) (line : String)
    (h : ∀ cell ∈ cells, cell.2.isSome = true) :
    buildLine cells line = some (line ++ lineOf (cells.filterMap (fun cell => cell.2))) := by
  induction cells generalizing line with
  | nil => simp [buildLine, lineOf]
  | cons cell cells ih =>
    obtain ⟨name, value⟩ := cell
    cases value with
    | none => simpa using h (name, none) (List.mem_cons_self _ _)
    | some a =>
      have h2 : ∀ cell ∈ cells, cell.2.isSome = true :=
        fun cell hc => h cell (List.mem_cons_of_mem _ hc)
      simp [buildLine, ih _ h2, lineOf, String.append_assoc]

theorem countryDataCallback_eq {F : Type} (L : FloatLib F) (p : DataPair F) (row : Row)
    (hdef : rowDefined row = true) :
    ∃ code, codeOf row = some code ∧
      countryDataCallback L p row =
        some (0, { countries := p.countries ++ [code], data := p.data ++ [recordOf L row] }) := by
  cases row with
  | nil => simp [rowDefined] at hdef
  | cons cell rest =>
    obtain ⟨name, value⟩ := cell
    cases value with
    | none => simp [rowDefined] at hdef
    | some code =>
      have hrest : ∀ cell ∈ rest, cell.2.isSome = true := by
        simp only [rowDefined, List.all_cons, Bool.and_eq_true, List.all_eq_true] at hdef
        exact hdef.2.2
      refine ⟨code, rfl, ?_⟩
      simp only [countryDataCallback, buildLine_eq rest "" hrest, readLoop_eq]
      simp only [String.empty_append, List.nil_append]
      rfl

theorem extract_lt {F : Type} (L : FloatLib F) (s rest : List Char) (v : F)
    (h : extract L s = some (v, rest)) : rest.length < s.length := by
  have hsub : (s.dropWhile isSpace).length ≤ s.length :=
    (List.dropWhile_sublist isSpace).length_le
  unfold extract at h
  split at h
  · simp at h
  · rename_i c cs hd
    rw [hd] at hsub
    split at h
    · simp at h
    · rename_i v' unread _
      simp only [Option.some.injEq, Prod.mk.injEq] at h
      obtain ⟨_, hr⟩ := h
      subst hr
      simp only [List.length_drop, List.length_cons] at hsub ⊢
      omega

theorem tokensAux_fuel {F : Type} (L : FloatLib F) (n m : Nat) (s : List Char)
    (hn : s.length ≤ n) (hm : s.length ≤ m) : tokensAux L n s = tokensAux L m s := by
  induction n generalizing m s with
  | zero =>
    have hs : s = [] := List.length_eq_zero.mp (Nat.le_zero.mp hn)
    subst hs
    cases m <;> simp [tokensAux, extract]
  | succ n ih =>
    cases m with
    | zero =>
      have hs : s = [] := List.length_eq_zero.mp (Nat.le_zero.mp hm)
      subst hs
      simp [tokensAux, extract]
    | succ m =>
      simp only [tokensAux]
      cases hx : extract L s with
      | none => rfl
      | some r =>
        obtain ⟨tok, rest⟩ := r
        have hlt := extract_lt L s rest tok hx
        simp only []
        rw [ih m rest (by omega) (by omega)]

/-- C2: on every row it is defined on (a row with a first cell and no NULL),
`countryDataCallback` returns 0 and appends one record, which is not empty: its
elements before the last are exactly the parsed tokens of the row's fields in
order, and its last element is their sum accumulated left to right from 0.
The parsed tokens are all the values the stream yields: reading with more fuel
than the length of the line gives the same tokens. -/
theorem countryDataCallback_record {F : Type} (L : FloatLib F) (p : DataPair F) (row : Row)
    (hdef : rowDefined row = true) :
    ∃ p' record, countryDataCallback L p row = some (0, p') ∧
      p'.data = p.data ++ [record] ∧
      record ≠ [] ∧
      record.dropLast = tokens L (lineOf (fieldsOf row)) ∧
      record.getLast? = some (record.dropLast.foldl L.add L.zero) ∧
      ∀ fuel, (lineOf (fieldsOf row)).length ≤ fuel →
        tokensAux L fuel (lineOf (fieldsOf row)).toList = tokens L (lineOf (fieldsOf row)) := by
  obtain ⟨code, _, hcb⟩ := countryDataCallback_eq L p row hdef
  refine ⟨_, recordOf L row, hcb, rfl, ?_, ?_, ?_, ?_⟩
  · simp [recordOf]
  · simp [recordOf]
  · simp [recordOf, sumFrom0]
  · intro fuel hfuel
    exact tokensAux_fuel L fuel _ _ hfuel (Nat.le_refl _)

theorem execRows_countryDataCallback {F : Type} (L : FloatLib F) (rows : List Row)
    (p : DataPair F) (hdef : ∀ row ∈ rows, rowDefined row = true) :
    execRows (countryDataCallback L) rows p =
      some (SQLITE_OK, { countries := p.countries ++ rows.filterMap codeOf,
                         data := p.data ++ rows.map (recordOf L) }) := by
  induction rows generalizing p with
  | nil => simp [execRows]
  | cons row rows ih =>
    obtain ⟨code, hcode, hcb⟩ := countryDataCallback_eq L p row (hdef row (List.mem_cons_self _ _))
    have hrows : ∀ r ∈ rows, rowDefined r = true := fun r hr => hdef r (List.mem_cons_of_mem _ hr)
    simp [execRows, hcb, ih _ hrows, hcode]

theorem filterMap_codeOf (rows : List Row) (hdef : ∀ row ∈ rows, rowDefined row = true) :
    (rows.filterMap codeOf).map some = rows.map codeOf := by
  induction rows with
  | nil => rfl
  | cons row rows ih =>
    have hrows : ∀ r ∈ rows, rowDefined r = true := fun r hr => hdef r (List.mem_cons_of_mem _ hr)
    have hrow := hdef row (List.mem_cons_self _ _)
    match row, hrow with
    | [], h => simp [rowDefined] at h
    | (_, none) :: _, h => simp [rowDefined] at h
    | (_, some code) :: _, _ => simp [codeOf, ih hrows]

theorem countryDataCallback_record_witness :
    ∃ p' record, countryDataCallback ieee { countries := ["CA"], data := [[]] }
        [("isocode", some "US"), ("Motorway", some "1.5"), ("Trunk", some "2")] = some (0, p') ∧
      p'.data = [[]] ++ [record] ∧
      record ≠ [] ∧
      record.dropLast =
        tokens ieee (lineOf (fieldsOf
          [("isocode", some "US"), ("Motorway", some "1.5"), ("Trunk", some "2")])) ∧
      record.getLast? = some (record.dropLast.foldl ieee.add ieee.zero) :=
  have h := countryDataCallback_record ieee { countries := ["CA"], data := [[]] }
    [("isocode", some "US"), ("Motorway", some "1.5"), ("Trunk", some "2")] (by decide)
  match h with
  | ⟨p', record, h1, h2, h3, h4, h5, _⟩ => ⟨p', record, h1, h2, h3, h4, h5⟩

/-- C3: folding `countryDataCallback` over any sequence of rows it is defined on,
from empty lists, ends with `SQLITE_OK` and leaves a code list and a record
list of equal length, the number of rows; the code list is the rows' first
fields in row order, duplicates kept. -/
theorem aggregate_parallel {F : Type} (L : FloatLib F) (rows : List Row)
    (hdef : ∀ row ∈ rows, rowDefined row = true) :
    ∃ p, execRows (countryDataCallback L) rows { countries := [], data := [] } =
        some (SQLITE_OK, p) ∧
      p.countries.length = p.data.length ∧
      p.data.length = rows.length ∧
      p.countries.map some = rows.map codeOf := by
  refine ⟨_, execRows_countryDataCallback L rows _ hdef, ?_, ?_, ?_⟩
  · have h := congrArg List.length (filterMap_codeOf rows hdef)
    simpa using h
  · simp
  · simpa using filterMap_codeOf rows hdef

theorem aggregate_parallel_witness :
    ∃ p, execRows (countryDataCallback ieee)
        [[("isocode", some "US"), ("Motorway", some "1.5")],
         [("isocode", some "CA"), ("Motorway", some "")],
         [("isocode", some "US"), ("Motorway", some "2")]]
        { countries := [], data := [] } = some (SQLITE_OK, p) ∧
      p.countries.length = p.data.length ∧
      p.data.length =
        [[("isocode", some "US"), ("Motorway", some "1.5")],
         [("isocode", some "CA"), ("Motorway", some "")],
         [("isocode", some "US"), ("Motorway", some "2")]].length ∧
      p.countries.map some =
        [[("isocode", some "US"), ("Motorway", some "1.5")],
         [("isocode", some "CA"), ("Motorway", some "")],
         [("isocode", some "US"), ("Motorway", some "2")]].map codeOf :=
  aggregate_parallel ieee _ (by decide)

/-! ## The queries -/

theorem rowDefined_mkRow (t : Table) (vals : List (Option String))
    (hcols : t.colNames ≠ []) (hlen : vals.length = t.colNames.length)
    (hnull : ∀ v ∈ vals, v ≠ none) : rowDefined (mkRow t vals) = true := by
  have hne : mkRow t vals ≠ [] := by
    intro h
    have := congrArg List.length h
    simp only [mkRow, List.length_zip, hlen, Nat.min_self, List.length_nil] at this
    exact hcols (List.length_eq_zero.mp this)
  simp only [rowDefined, Bool.and_eq_true, Bool.not_eq_true', List.isEmpty_eq_false,
    List.all_eq_true]
  refine ⟨hne, fun cell hcell => ?_⟩
  obtain ⟨name, value⟩ := cell
  have hv := (List.of_mem_zip hcell).2
  cases value with
  | none => exact absurd rfl (hnull _ hv)
  | some a => rfl

theorem codeOf_mkRow (t : Table) (vals : List (Option String))
    (hcols : t.colNames ≠ []) : codeOf (mkRow t vals) = vals.head?.join := by
  cases hc : t.colNames with
  | nil => exact absurd hc hcols
  | cons name names =>
    cases vals with
    | nil => simp [mkRow, codeOf]
    | cons v vs => cases v <;> simp [mkRow, hc, codeOf]

theorem joinFrom_succ (j : Nat) (items : List String) :
    joinFrom (j + 1) items = joinFrom 1 items := by
  induction items generalizing j with
  | nil => simp [joinFrom]
  | cons item items ih =>
    simp only [joinFrom, ne_eq, Nat.add_one_ne_zero, not_false_eq_true, if_true]
    rw [ih (j + 1), ih 1]

theorem intercalate_go_eq (acc : String) (items : List String) :
    String.intercalate.go acc ",\n" items = acc ++ joinFrom 1 items := by
  induction items generalizing acc with
  | nil => simp [String.intercalate.go, joinFrom]
  | cons item items ih =>
    simp [String.intercalate.go, joinFrom, ih, joinFrom_succ, String.append_assoc]

theorem joinFrom_zero (items : List String) :
    joinFrom 0 items = ",\n".intercalate items := by
  cases items with
  | nil => rfl
  | cons item items => simp [String.intercalate, joinFrom, intercalate_go_eq]

theorem recordsLoop_eq {F : Type} (L : FloatLib F) (data : List (List F)) (i : Nat)
    (record : List F) (hrec : data[i]? = some record) (classes : List String) (j : Nat)
    (str : String) (hlen : j + classes.length ≤ record.length) :
    recordsLoop L data i classes j str =
      some (str ++ joinFrom j (List.zipWith (recordLine L) classes (record.drop j))) := by
  induction classes generalizing j str with
  | nil => simp [recordsLoop, joinFrom]
  | cons cls classes ih =>
    have hj : j < record.length := by
      simp only [List.length_cons] at hlen
      omega
    have hlen2 : j + 1 + classes.length ≤ record.length := by
      simp only [List.length_cons] at hlen
      omega
    have hdrop : record.drop j = record[j] :: record.drop (j + 1) :=
      List.drop_eq_getElem_cons hj
    simp only [recordsLoop, hrec, List.getElem?_eq_getElem hj, ih (j + 1) _ hlen2, hdrop,
      List.zipWith_cons_cons, joinFrom, recordLine]
    by_cases h0 : j = 0
    · subst h0
      simp [String.append_assoc]
    · have hsep : ",\n    \"" = ",\n" ++ "    \"" := by decide
      simp only [h0, ne_eq, not_false_eq_true, if_true, hsep, String.append_assoc]

theorem countriesLoop_eq {F : Type} (L : FloatLib F) (data : List (List F))
    (classes : List String) (hrec : ∀ record ∈ data, classes.length ≤ record.length)
    (countries : List String) (i : Nat) (str : String)
    (hlen : i + countries.length ≤ data.length) :
    countriesLoop L data classes countries i str =
      some (str ++ joinFrom i (List.zipWith (entryText L classes) countries (data.drop i))) := by
  induction countries generalizing i str with
  | nil => simp [countriesLoop, joinFrom]
  | cons country countries ih =>
    have hi : i < data.length := by
      simp only [List.length_cons] at hlen
      omega
    have hlen2 : i + 1 + countries.length ≤ data.length := by
      simp only [List.length_cons] at hlen
      omega
    have hdrop : data.drop i = data[i] :: data.drop (i + 1) := List.drop_eq_getElem_cons hi
    have hget : data[i]? = some data[i] := List.getElem?_eq_getElem hi
    have hfit : 0 + classes.length ≤ data[i].length := by
      have := hrec data[i] (List.getElem_mem hi)
      omega
    have h1 : "\" : \x7b\n  \"name\" : \"" = "\" : \x7b\n" ++ "  \"name\" : \"" := by decide
    have h2 : "\",\n  \"records\": \x7b\n" = "\",\n" ++ "  \"records\": \x7b\n" := by decide
    have h3 : ",\n\"" = ",\n" ++ "\"" := by decide
    simp only [countriesLoop, recordsLoop_eq L data i data[i] hget classes 0 _ hfit,
      joinFrom_zero, List.drop_zero, ih (i + 1) _ hlen2, hdrop, List.zipWith_cons_cons,
      joinFrom, entryText, h1, h2]
    by_cases h0 : i = 0
    · subst h0
      simp only [ne_eq, not_true_eq_false, if_false, String.empty_append, String.append_assoc]
    · simp only [h0, ne_eq, not_false_eq_true, if_true, h3, String.append_assoc]

theorem generateJsonStr_eq {F : Type} (L : FloatLib F) (codes : List String)
    (data : List (List F)) (labels : List String)
    (hlen : codes.length ≤ data.length)
    (hrec : ∀ record ∈ data, labels.length ≤ record.length) :
    generateJsonStr L codes data labels = some (documentText L codes data labels) := by
  have h := countriesLoop_eq L data labels hrec codes 0 "\x7b\n" (by omega)
  simp [generateJsonStr, h, documentText, joinFrom_zero, String.append_assoc]

set_option maxRecDepth 100000 in
/-- C5: when there is a record for every country code and each record has at least
as many elements as there are labels, the text `generateJson` builds is an
opening brace and newline, the entries of the countries joined by ",\n", and
a newline and closing brace, the entry of country `i` being its quoted code,
its name and the lines of label `j` with `record[i][j]` in two decimals joined
by ",\n" (the file gets this text and a newline); for the codes US and CA, the
labels Motorway and total and the records of 1234.5 and 987.65 the text is the
example document of the specification. -/
theorem generateJson_document {F : Type} (L : FloatLib F) (codes : List String)
    (data : List (List F)) (labels : List String)
    (hlen : codes.length ≤ data.length)
    (hrec : ∀ record ∈ data, labels.length ≤ record.length) :
    generateJsonStr L codes data labels =
        some ("\x7b\n" ++ ",\n".intercalate (List.zipWith (fun code record =>
            "\"" ++ code ++ "\" : \x7b\n  \"name\" : \"" ++ code ++ "\",\n  \"records\": \x7b\n" ++
              ",\n".intercalate (List.zipWith (fun label value =>
                "    \"" ++ label ++ "\": " ++ L.fixed2 value) labels record) ++
              "\n  \x7d\x7d") codes data) ++ "\n\x7d") ∧
      generateJson L codes data labels = some (documentText L codes data labels ++ "\n") ∧
      ((Float32.ofLiteral "1234.5").bind fun a => (Float32.ofLiteral "987.65").bind fun b =>
        generateJsonStr ieee ["US", "CA"] [[a, a], [b, b]] ["Motorway", "total"]) =
        some ("\x7b\n\"US\" : \x7b\n  \"name\" : \"US\",\n  \"records\": \x7b\n" ++
          "    \"Motorway\": 1234.50,\n    \"total\": 1234.50\n  \x7d\x7d,\n" ++
          "\"CA\" : \x7b\n  \"name\" : \"CA\",\n  \"records\": \x7b\n" ++
          "    \"Motorway\": 987.65,\n    \"total\": 987.65\n  \x7d\x7d\n\x7d") := by
  refine ⟨generateJsonStr_eq L codes data labels hlen hrec, ?_, by decide⟩
  simp [generateJson, generateJsonStr_eq L codes data labels hlen hrec]

theorem generateJson_document_witness :
    generateJsonStr ieee ["US"] [[Float32.finite false 0]] ["total"] =
      some ("\x7b\n" ++ ",\n".intercalate (List.zipWith (fun code record =>
          "\"" ++ code ++ "\" : \x7b\n  \"name\" : \"" ++ code ++ "\",\n  \"records\": \x7b\n" ++
            ",\n".intercalate (List.zipWith (fun label value =>
              "    \"" ++ label ++ "\": " ++ ieee.fixed2 value) ["total"] record) ++
            "\n  \x7d\x7d") ["US"] [[Float32.finite false 0]]) ++ "\n\x7d") :=
  (generateJson_document ieee ["US"] [[Float32.finite false 0]] ["total"]
    (by decide) (by decide)).1

/-! ## Rows of one numeric token per field -/

theorem extract_skip {F : Type} (L : FloatLib F) (pre s : List Char)
    (hpre : ∀ c ∈ pre, isSpace c = true) : extract L (pre ++ s) = extract L s := by
  simp only [extract, List.dropWhile_append_of_pos hpre]

theorem extract_spaces {F : Type} (L : FloatLib F) (pre : List Char)
    (hpre : ∀ c ∈ pre, isSpace c = true) : extract L pre = none := by
  have h := @List.dropWhile_append_of_pos _ isSpace pre [] hpre
  simp only [List.append_nil, List.dropWhile_nil] at h
  simp [extract, h]

theorem oneToken_length {F : Type} (L : FloatLib F) (field : String) (v : F)
    (h : OneToken L field v) : 0 < field.toList.length := by
  have := extract_lt L _ _ _ (h [])
  simp only [List.length_append, List.length_cons, List.length_nil] at this
  omega

theorem tokensAux_line {F : Type} (L : FloatLib F) (fields : List String) (values : List F)
    (htok : List.Forall₂ (OneToken L) fields values) (pre : List Char) (fuel : Nat)
    (hpre : ∀ c ∈ pre, isSpace c = true)
    (hfuel : (pre ++ (lineOf fields).toList).length ≤ fuel) :
    tokensAux L fuel (pre ++ (lineOf fields).toList) = values := by
  induction htok generalizing pre fuel with
  | nil =>
    cases fuel with
    | zero => rfl
    | succ fuel => simp [tokensAux, lineOf, extract_spaces L pre hpre]
  | @cons field v fields values hfield _ ih =>
    have hline : (lineOf (field :: fields)).toList =
        field.toList ++ ' ' :: (lineOf fields).toList := by
      simp [lineOf, String.toList]
    have hpos := oneToken_length L field v hfield
    rw [hline] at hfuel ⊢
    simp only [List.length_append, List.length_cons] at hfuel
    cases fuel with
    | zero => omega
    | succ fuel =>
      have hstep : extract L (pre ++ (field.toList ++ ' ' :: (lineOf fields).toList)) =
          some (v, ' ' :: (lineOf fields).toList) := by
        rw [extract_skip L pre _ hpre]
        exact hfield _
      have hrest := ih [' '] fuel (by simp [isSpace]) (by
        simp only [List.length_append, List.length_cons, List.length_nil]
        omega)
      simp only [tokensAux, hstep]
      simpa using hrest

theorem tokens_line {F : Type} (L : FloatLib F) (fields : List String) (values : List F)
    (htok : List.Forall₂ (OneToken L) fields values) :
    tokens L (lineOf fields) = values := by
  have h := tokensAux_line L fields values htok [] (lineOf fields).length (by simp)
    (Nat.le_refl _)
  simpa [tokens] using h

theorem ieeeNumGet_eq (c : Char) (cs xtrc rest : List Char)
    (hscan : scanFloat (c :: cs) = (xtrc, rest)) :
    ieeeNumGet c cs = (convertToFloat xtrc).map (fun v => (v, rest.length)) := by
  simp only [ieeeNumGet, hscan]
  cases convertToFloat xtrc <;> rfl

theorem oneToken_ieee (field : String) (c : Char) (cs xtrc : List Char) (v : Float32)
    (hfield : field.toList = c :: cs) (hc : isSpace c = false)
    (hscan : ∀ rest, scanFloat (c :: (cs ++ ' ' :: rest)) = (xtrc, ' ' :: rest))
    (hconv : convertToFloat xtrc = some v) : OneToken ieee field v := by
  intro rest
  have hnum : ieee.numGet c (cs ++ ' ' :: rest) = some (v, rest.length + 1) := by
    show ieeeNumGet c (cs ++ ' ' :: rest) = _
    rw [ieeeNumGet_eq c _ xtrc _ (hscan rest), hconv]
    rfl
  have hdrop : (c :: (cs ++ ' ' :: rest)).dropWhile isSpace = c :: (cs ++ ' ' :: rest) := by
    simp [List.dropWhile, hc]
  have hlen : (cs ++ ' ' :: rest).length - (rest.length + 1) = cs.length := by
    simp only [List.length_append, List.length_cons]
    omega
  rw [hfield]
  show extract ieee (c :: (cs ++ ' ' :: rest)) = _
  simp only [extract, hdrop, hnum, hlen, List.drop_left]

set_option maxRecDepth 100000 in
theorem oneToken_one_and_half :
    OneToken ieee "1.5" (Float32.finite false 1070435769529469910793714477087121352287059968) :=
  oneToken_ieee "1.5" '1' ['.', '5'] ['1', '.', '5'] _ rfl (by decide)
    (fun rest => by simp [scanFloat, scanDigits]) (by decide)

theorem fieldsOf_mkRow (t : Table) (v : Option String) (fields : List String)
    (hrow : (v :: fields.map some).length = t.colNames.length) :
    fieldsOf (mkRow t (v :: fields.map some)) = fields := by
  cases hc : t.colNames with
  | nil => simp [hc] at hrow
  | cons name names =>
    have hlen : (fields.map some).length ≤ names.length := by
      simp only [hc, List.length_cons, List.length_map] at hrow ⊢
      omega
    have hsnd := List.map_snd_zip names (fields.map some) hlen
    have hfm : ∀ cells : List (String × Option String),
        cells.filterMap (fun cell => cell.2) = (cells.map Prod.snd).filterMap id := by
      intro cells
      rw [List.filterMap_map]
      rfl
    simp only [fieldsOf, mkRow, hc, List.zip_cons_cons, List.drop_succ_cons, List.drop_zero]
    rw [hfm, hsnd, List.filterMap_map]
    simp

theorem labels_mkRow (t : Table) (sample : List (Option String))
    (hsample : sample.length = t.colNames.length) :
    (classCallback [] (mkRow t sample)).2 = t.colNames.tail ++ ["total"] := by
  have hfst := List.map_fst_zip t.colNames sample (by omega)
  simp only [classCallback_eq, List.nil_append, mkRow, ← List.map_drop, List.drop_one]
  rw [List.map_tail, hfst]

/-- C7: in a table whose rows have a value for every column, take a row of a code
and fields that are each exactly one numeric token, and the labels
`classCallback` derives from any row of the table: the record
`countryDataCallback` appends has exactly as many elements as there are labels,
it is the values of the fields in column order followed by their sum, and it
pairs up with the labels as column `j + 1` with value `j`, then "total" with
the sum. -/
theorem countryDataCallback_aligned {F : Type} (L : FloatLib F) (t : Table) (p : DataPair F)
    (sample : List (Option String)) (code : String) (fields : List String) (values : List F)
    (hsample : sample.length = t.colNames.length)
    (hrow : (some code :: fields.map some).length = t.colNames.length)
    (htok : List.Forall₂ (OneToken L) fields values) :
    ∃ record,
      countryDataCallback L p (mkRow t (some code :: fields.map some)) =
        some (0, { countries := p.countries ++ [code], data := p.data ++ [record] }) ∧
      record.length = (classCallback [] (mkRow t sample)).2.length ∧
      record = values ++ [values.foldl L.add L.zero] ∧
      (classCallback [] (mkRow t sample)).2.zip record =
        t.colNames.tail.zip values ++ [("total", values.foldl L.add L.zero)] := by
  have hcols : t.colNames ≠ [] := by
    intro h
    simp [h] at hrow
  have hdef : rowDefined (mkRow t (some code :: fields.map some)) = true := by
    apply rowDefined_mkRow t _ hcols hrow
    intro v hv
    simp only [List.mem_cons, List.mem_map] at hv
    rcases hv with rfl | ⟨f, _, rfl⟩ <;> simp
  obtain ⟨code', hcode, hcb⟩ := countryDataCallback_eq L p _ hdef
  have hc : code' = code := by
    rw [codeOf_mkRow t _ hcols] at hcode
    simpa using hcode.symm
  subst hc
  have hrecord : recordOf L (mkRow t (some code' :: fields.map some)) =
      values ++ [values.foldl L.add L.zero] := by
    simp only [recordOf, fieldsOf_mkRow t _ fields hrow, tokens_line L fields values htok,
      sumFrom0]
  have hvals : t.colNames.tail.length = values.length := by
    have h1 := htok.length_eq
    simp only [List.length_cons, List.length_map] at hrow
    simp only [List.length_tail]
    omega
  refine ⟨_, hcb, ?_, hrecord, ?_⟩
  · rw [hrecord, labels_mkRow t sample hsample]
    simp [hvals]
  · rw [hrecord, labels_mkRow t sample hsample, List.zip_append hvals]
    rfl

theorem countryDataCallback_aligned_witness :
    ∃ record,
      countryDataCallback ieee { countries := [], data := [] }
          (mkRow tableWithEmptyCode (some "US" :: ["1.5"].map some)) =
        some (0, { countries := [] ++ ["US"], data := [] ++ [record] }) ∧
      record.length = (classCallback [] (mkRow tableWithEmptyCode [some "", some "3"])).2.length ∧
      record = [Float32.finite false 1070435769529469910793714477087121352287059968] ++
        [[Float32.finite false 1070435769529469910793714477087121352287059968].foldl
          ieee.add ieee.zero] ∧
      (classCallback [] (mkRow tableWithEmptyCode [some "", some "3"])).2.zip record =
        tableWithEmptyCode.colNames.tail.zip
            [Float32.finite false 1070435769529469910793714477087121352287059968] ++
          [("total", [Float32.finite false 1070435769529469910793714477087121352287059968].foldl
            ieee.add ieee.zero)] :=
  countryDataCallback_aligned ieee tableWithEmptyCode { countries := [], data := [] }
    [some "", some "3"] "US" ["1.5"] _ rfl rfl
    (List.Forall₂.cons oneToken_one_and_half List.Forall₂.nil)

/-! ## Records shorter than the label list -/

theorem recordsLoop_short {F : Type} (L : FloatLib F) (data : List (List F)) (i : Nat)
    (record : List F) (hrec : data[i]? = some record) (classes : List String) (j : Nat)
    (str : String) (hne : classes ≠ []) (hshort : record.length < j + classes.length) :
    recordsLoop L data i classes j str = none := by
  induction classes generalizing j str with
  | nil => exact absurd rfl hne
  | cons cls classes ih =>
    simp only [recordsLoop, hrec]
    cases hv : record[j]? with
    | none => rfl
    | some value =>
      have hj : j < record.length := by
        by_contra hge
        rw [List.getElem?_eq_none (by omega)] at hv
        exact Option.noConfusion hv
      have hne2 : classes ≠ [] := by
        intro hnil
        subst hnil
        simp only [List.length_cons, List.length_nil] at hshort
        omega
      exact ih (j + 1) _ hne2 (by
        simp only [List.length_cons] at hshort
        omega)

theorem countriesLoop_short {F : Type} (L : FloatLib F) (data : List (List F))
    (classes : List String) (countries : List String) (i k : Nat) (str : String)
    (hk : k < countries.length) (record : List F) (hrec : data[i + k]? = some record)
    (hshort : record.length < classes.length) :
    countriesLoop L data classes countries i str = none := by
  induction countries generalizing i k str with
  | nil => simp at hk
  | cons country countries ih =>
    simp only [countriesLoop]
    cases k with
    | zero =>
      have hne : classes ≠ [] := by
        intro hnil
        subst hnil
        simp at hshort
      rw [recordsLoop_short L data i record hrec classes 0 _ hne (by omega)]
    | succ k =>
      cases recordsLoop L data i classes 0 _ with
      | none => rfl
      | some str2 =>
        exact ih (i + 1) k _ (by
          simp only [List.length_cons] at hk
          omega) (by
          have : i + 1 + k = i + (k + 1) := by omega
          rw [this]
          exact hrec)

theorem generateJsonStr_short {F : Type} (L : FloatLib F) (codes : List String)
    (data : List (List F)) (labels : List String) (k : Nat) (hk : k < codes.length)
    (record : List F) (hrec : data[k]? = some record)
    (hshort : record.length < labels.length) :
    generateJsonStr L codes data labels = none := by
  have h := countriesLoop_short L data labels codes 0 k "\x7b\n" hk record
    (by simpa using hrec) hshort
  simp [generateJsonStr, h]

set_option maxRecDepth 100000 in
/-- C6: a row whose numeric field is the empty string yields a record of one
element, the total, for two labels; `generateJson` then reads `data[0][1]`
past the end of the record, which is undefined, where the claim has it emit
the one pair that exists.  It is so whenever the record of a country is
shorter than the label list. -/
theorem generateJson_short_record :
    fillClasses { countrydata := some tableWithEmptyField } [] =
        some (Step.ret ["Motorway", "total"]) ∧
      fillCountryData ieee { countrydata := some tableWithEmptyField }
          { countries := [], data := [] } =
        some (Step.ret { countries := ["US"], data := [[Float32.finite false 0]] }) ∧
      generateJson ieee ["US"] [[Float32.finite false 0]] ["Motorway", "total"] = none ∧
      main ieee ["valhalla_build_statistics", "statistics.sqlite"]
        (fun _ => some { countrydata := some tableWithEmptyField }) = none ∧
      ∀ (codes : List String) (data : List (List Float32)) (labels : List String) (k : Nat)
        (record : List Float32), k < codes.length → data[k]? = some record →
        record.length < labels.length → generateJson ieee codes data labels = none := by
  refine ⟨by decide, by decide, by decide, by decide, ?_⟩
  intro codes data labels k record hk hrec hshort
  simp [generateJson, generateJsonStr_short ieee codes data labels k hk record hrec hshort]

/-! ## Rows that share a country code -/

theorem codeOf_defined (row : Row) (hdef : rowDefined row = true) :
    ∃ code, codeOf row = some code := by
  match row, hdef with
  | [], h => simp [rowDefined] at h
  | (_, none) :: _, h => simp [rowDefined] at h
  | (_, some code) :: _, _ => exact ⟨code, rfl⟩

theorem zipWith_entries {F : Type} (L : FloatLib F) (labels : List String) (rows : List Row)
    (hdef : ∀ row ∈ rows, rowDefined row = true) :
    List.zipWith (entryText L labels) (rows.filterMap codeOf) (rows.map (recordOf L)) =
      rows.filterMap (fun row =>
        (codeOf row).map (fun code => entryText L labels code (recordOf L row))) := by
  induction rows with
  | nil => rfl
  | cons row rows ih =>
    have hrows : ∀ r ∈ rows, rowDefined r = true := fun r hr => hdef r (List.mem_cons_of_mem _ hr)
    obtain ⟨code, hcode⟩ := codeOf_defined row (hdef row (List.mem_cons_self _ _))
    simp [hcode, ih hrows]

set_option maxRecDepth 100000 in
/-- C8, the claim refuted: for the table of two rows of code US, the report `main`
writes has two entries keyed by US, the first built from the first row. -/
theorem duplicate_code_two_entries :
    ∃ document,
      (main ieee ["valhalla_build_statistics", "statistics.sqlite"]
        (fun _ => some { countrydata := some tableWithDuplicate })).bind (fun run => run.report) =
        some (document ++ "\n") ∧
      document =
        "\x7b\n\"US\" : \x7b\n  \"name\" : \"US\",\n  \"records\": \x7b\n" ++
        "    \"Motorway\": 1.00,\n    \"total\": 1.00\n  \x7d\x7d,\n" ++
        "\"US\" : \x7b\n  \"name\" : \"US\",\n  \"records\": \x7b\n" ++
        "    \"Motorway\": 2.00,\n    \"total\": 2.00\n  \x7d\x7d\n\x7d" ∧
      entryCount document "US" = 2 :=
  ⟨_, by decide, rfl, by decide⟩

/-- C8, amended: the serializer merges nothing.  For every sequence of rows the
aggregator is defined on, whose records have an element for every label, the
document built from the aggregated codes and records has one entry per row,
in row order, each made of the code and the record of its own row; two rows
that share a code give two entries with that key. -/
theorem report_entry_per_row {F : Type} (L : FloatLib F) (rows : List Row)
    (labels : List String) (hdef : ∀ row ∈ rows, rowDefined row = true)
    (hrec : ∀ row ∈ rows, labels.length ≤ (recordOf L row).length) :
    ∃ p entries,
      execRows (countryDataCallback L) rows { countries := [], data := [] } =
        some (SQLITE_OK, p) ∧
      generateJsonStr L p.countries p.data labels =
        some ("\x7b\n" ++ ",\n".intercalate entries ++ "\n\x7d") ∧
      entries = rows.filterMap (fun row =>
        (codeOf row).map (fun code => entryText L labels code (recordOf L row))) ∧
      entries.length = rows.length := by
  have hagg := execRows_countryDataCallback L rows { countries := [], data := [] } hdef
  simp only [List.nil_append] at hagg
  have hcodes : (rows.filterMap codeOf).length = rows.length := by
    simpa using congrArg List.length (filterMap_codeOf rows hdef)
  refine ⟨_, _, hagg, ?_, rfl, ?_⟩
  · rw [generateJsonStr_eq L _ _ labels (by simp [hcodes]) (by
      intro record hmem
      obtain ⟨row, hrow, rfl⟩ := List.mem_map.mp hmem
      exact hrec row hrow)]
    simp only [documentText, zipWith_entries L labels rows hdef]
  · rw [← zipWith_entries L labels rows hdef]
    simp [hcodes]

set_option maxRecDepth 100000 in
theorem report_entry_per_row_witness :
    ∃ p entries,
      execRows (countryDataCallback ieee) (selectWhereIsocode tableWithDuplicate)
          { countries := [], data := [] } = some (SQLITE_OK, p) ∧
      generateJsonStr ieee p.countries p.data ["Motorway", "total"] =
        some ("\x7b\n" ++ ",\n".intercalate entries ++ "\n\x7d") ∧
      entries = (selectWhereIsocode tableWithDuplicate).filterMap (fun row =>
        (codeOf row).map (fun code =>
          entryText ieee ["Motorway", "total"] code (recordOf ieee row))) ∧
      entries.length = (selectWhereIsocode tableWithDuplicate).length :=
  report_entry_per_row ieee (selectWhereIsocode tableWithDuplicate) ["Motorway", "total"]
    (by decide) (by decide)

/-! ## Codes and labels as JSON strings -/

theorem jsonEscapeChar_clean (c : Char) (hc : needsEscape c = false) :
    jsonEscapeChar c = [c] := by
  simp only [needsEscape, Bool.or_eq_false_iff, decide_eq_false_iff_not] at hc
  obtain ⟨⟨h1, h2⟩, h3⟩ := hc
  simp [jsonEscapeChar, h1, h2, h3]

theorem jsonEscapeChar_length (c : Char) :
    1 ≤ (jsonEscapeChar c).length ∧ (needsEscape c = true → 2 ≤ (jsonEscapeChar c).length) := by
  unfold jsonEscapeChar needsEscape
  by_cases h1 : c = '"'
  · simp [h1]
  · by_cases h2 : c = '\\'
    · simp [h2]
    · by_cases h3 : c.toNat < 32
      · simp [h1, h2, h3]
      · simp [h1, h2, h3]

theorem flatMap_escape_length (l : List Char) :
    l.length ≤ (l.flatMap jsonEscapeChar).length ∧
      ((∃ c ∈ l, needsEscape c = true) → l.length < (l.flatMap jsonEscapeChar).length) := by
  induction l with
  | nil => simp
  | cons c l ih =>
    have hc := jsonEscapeChar_length c
    simp only [List.flatMap_cons, List.length_append, List.length_cons]
    refine ⟨by omega, ?_⟩
    rintro ⟨d, hd, hneeds⟩
    rcases List.mem_cons.mp hd with rfl | hmem
    · have := hc.2 hneeds
      omega
    · have := ih.2 ⟨d, hmem, hneeds⟩
      omega

theorem jsonEscape_clean (text : String) (h : ∀ c ∈ text.toList, needsEscape c = false) :
    jsonEscape text = text := by
  have hl : ∀ l : List Char, (∀ c ∈ l, needsEscape c = false) → l.flatMap jsonEscapeChar = l := by
    intro l
    induction l with
    | nil => simp
    | cons c l ih =>
      intro hall
      simp only [List.flatMap_cons, jsonEscapeChar_clean c (hall c (List.mem_cons_self _ _)),
        ih (fun d hd => hall d (List.mem_cons_of_mem _ hd))]
      rfl
  simp only [jsonEscape, hl text.toList h]
  rfl

theorem jsonEscape_eq_iff (text : String) :
    jsonEscape text = text ↔ ∀ c ∈ text.toList, needsEscape c = false := by
  constructor
  · intro heq c hc
    by_contra hne
    have hneeds : needsEscape c = true := by simpa using hne
    have hlt := (flatMap_escape_length text.toList).2 ⟨c, hc, hneeds⟩
    have hlen := congrArg String.length heq
    simp only [jsonEscape, String.length, String.toList] at hlen
    simp only [String.toList] at hlt
    omega
  · exact jsonEscape_clean text

theorem jsonEscape_length (text : String) :
    text.length ≤ (jsonEscape text).length ∧
      ((∃ c ∈ text.toList, needsEscape c = true) → text.length < (jsonEscape text).length) := by
  exact flatMap_escape_length text.toList

theorem joinFrom_zipWith_le {α β : Type} (f g : α → β → String) (xs : List α) (ys : List β)
    (j : Nat) (hle : ∀ x ∈ xs, ∀ y ∈ ys, (f x y).length ≤ (g x y).length) :
    (joinFrom j (List.zipWith f xs ys)).length ≤ (joinFrom j (List.zipWith g xs ys)).length := by
  induction xs generalizing ys j with
  | nil => simp [joinFrom]
  | cons x xs ih =>
    cases ys with
    | nil => simp [joinFrom]
    | cons y ys =>
      have h1 := hle x (List.mem_cons_self _ _) y (List.mem_cons_self _ _)
      have h2 := ih ys (j + 1) (fun a ha b hb =>
        hle a (List.mem_cons_of_mem _ ha) b (List.mem_cons_of_mem _ hb))
      simp only [List.zipWith_cons_cons, joinFrom, String.length_append]
      omega

theorem joinFrom_zipWith_lt {α β : Type} (f g : α → β → String) (xs : List α) (ys : List β)
    (j : Nat) (hle : ∀ x ∈ xs, ∀ y ∈ ys, (f x y).length ≤ (g x y).length)
    (hlen : xs.length ≤ ys.length)
    (hlt : ∃ x ∈ xs, ∀ y ∈ ys, (f x y).length < (g x y).length) :
    (joinFrom j (List.zipWith f xs ys)).length < (joinFrom j (List.zipWith g xs ys)).length := by
  induction xs generalizing ys j with
  | nil =>
    obtain ⟨x, hx, _⟩ := hlt
    cases hx
  | cons x xs ih =>
    cases ys with
    | nil => simp at hlen
    | cons y ys =>
      have hle2 : ∀ a ∈ xs, ∀ b ∈ ys, (f a b).length ≤ (g a b).length := fun a ha b hb =>
        hle a (List.mem_cons_of_mem _ ha) b (List.mem_cons_of_mem _ hb)
      have h1 := hle x (List.mem_cons_self _ _) y (List.mem_cons_self _ _)
      simp only [List.zipWith_cons_cons, joinFrom, String.length_append]
      obtain ⟨a, ha, hall⟩ := hlt
      rcases List.mem_cons.mp ha with rfl | hmem
      · have h2 := hall y (List.mem_cons_self _ _)
        have h3 := joinFrom_zipWith_le f g xs ys (j + 1) hle2
        omega
      · have h3 := ih ys (j + 1) hle2 (by simpa using hlen)
          ⟨a, hmem, fun b hb => hall b (List.mem_cons_of_mem _ hb)⟩
        omega

theorem recordLine_escape_length {F : Type} (L : FloatLib F) (label : String) (value : F) :
    (recordLine L label value).length ≤ (recordLine L (jsonEscape label) value).length ∧
      ((∃ c ∈ label.toList, needsEscape c = true) →
        (recordLine L label value).length < (recordLine L (jsonEscape label) value).length) := by
  have h := jsonEscape_length label
  simp only [recordLine, String.length_append]
  refine ⟨by omega, fun hex => ?_⟩
  have := h.2 hex
  omega

theorem entryText_escape_length {F : Type} (L : FloatLib F) (labels : List String)
    (code : String) (record : List F) :
    (entryText L labels code record).length ≤
        (entryText L (labels.map jsonEscape) (jsonEscape code) record).length ∧
      ((∃ c ∈ code.toList, needsEscape c = true) →
        (entryText L labels code record).length <
          (entryText L (labels.map jsonEscape) (jsonEscape code) record).length) ∧
      (labels.length ≤ record.length →
        (∃ label ∈ labels, ∃ c ∈ label.toList, needsEscape c = true) →
        (entryText L labels code record).length <
          (entryText L (labels.map jsonEscape) (jsonEscape code) record).length) := by
  have hcode := jsonEscape_length code
  have hle := joinFrom_zipWith_le (recordLine L) (fun label value =>
    recordLine L (jsonEscape label) value) labels record 0
    (fun label _ value _ => (recordLine_escape_length L label value).1)
  simp only [entryText, List.zipWith_map_left, ← joinFrom_zero, String.length_append]
  refine ⟨by omega, fun hex => ?_, fun hlen hex => ?_⟩
  · have := hcode.2 hex
    omega
  · obtain ⟨label, hlabel, hc⟩ := hex
    have hlt := joinFrom_zipWith_lt (recordLine L) (fun label value =>
      recordLine L (jsonEscape label) value) labels record 0
      (fun label _ value _ => (recordLine_escape_length L label value).1) hlen
      ⟨label, hlabel, fun value _ => (recordLine_escape_length L label value).2 hc⟩
    omega

theorem documentText_escape_length {F : Type} (L : FloatLib F) (codes : List String)
    (data : List (List F)) (labels : List String) (hlen : codes.length ≤ data.length)
    (hrec : ∀ record ∈ data, labels.length ≤ record.length)
    (hex : (∃ code ∈ codes, ∃ c ∈ code.toList, needsEscape c = true) ∨
      (codes ≠ [] ∧ ∃ label ∈ labels, ∃ c ∈ label.toList, needsEscape c = true)) :
    (documentText L codes data labels).length <
      (documentText L (codes.map jsonEscape) data (labels.map jsonEscape)).length := by
  have hlt := joinFrom_zipWith_lt (entryText L labels) (fun code record =>
    entryText L (labels.map jsonEscape) (jsonEscape code) record) codes data 0
    (fun code _ record _ => (entryText_escape_length L labels code record).1) hlen (by
      rcases hex with ⟨code, hcode, hc⟩ | ⟨hne, hlabel⟩
      · exact ⟨code, hcode, fun record _ => (entryText_escape_length L labels code record).2.1 hc⟩
      · cases codes with
        | nil => exact absurd rfl hne
        | cons code codes =>
          exact ⟨code, List.mem_cons_self _ _, fun record hrecord =>
            (entryText_escape_length L labels code record).2.2 (hrec record hrecord) hlabel⟩)
  simp only [documentText, List.zipWith_map_left, ← joinFrom_zero, String.length_append]
  omega

set_option maxRecDepth 100000 in
/-- C9, the claim refuted: a code with a double quote in it is written as it is;
the document differs from the one that has the code's JSON string literal. -/
theorem quote_not_escaped :
    generateJsonStr ieee ["a\"b"] [[Float32.finite false 0]] ["total"] =
      some ("\x7b\n\"a\"b\" : \x7b\n  \"name\" : \"a\"b\",\n  \"records\": \x7b\n" ++
        "    \"total\": 0.00\n  \x7d\x7d\n\x7d") ∧
    generateJsonStr ieee [jsonEscape "a\"b"] [[Float32.finite false 0]] [jsonEscape "total"] =
      some ("\x7b\n\"a\\\"b\" : \x7b\n  \"name\" : \"a\\\"b\",\n  \"records\": \x7b\n" ++
        "    \"total\": 0.00\n  \x7d\x7d\n\x7d") ∧
    generateJsonStr ieee ["a\"b"] [[Float32.finite false 0]] ["total"] ≠
      generateJsonStr ieee (["a\"b"].map jsonEscape) [[Float32.finite false 0]]
        (["total"].map jsonEscape) := by
  decide

/-- C9, amended: when there is a record for every code and each record has an
element for every label, so that the document is defined, the serializer
writes every code and every label verbatim between double quotes, with no
escaping, whatever characters it holds: the document is the entries joined,
each made of the code as it is, twice, and of the lines of the labels as they
are.  A text is its own JSON escape exactly when it has no double quote,
backslash or control character; and the document written is the one with the
JSON string literals of the codes and labels if and only if no code, and when
there is a country no label, has such a character. -/
theorem codes_and_labels_written_verbatim {F : Type} (L : FloatLib F) (codes : List String)
    (data : List (List F)) (labels : List String)
    (hlen : codes.length ≤ data.length)
    (hrec : ∀ record ∈ data, labels.length ≤ record.length) :
    generateJsonStr L codes data labels =
        some ("\x7b\n" ++
          ",\n".intercalate (List.zipWith (fun code record =>
            "\"" ++ code ++ "\" : \x7b\n  \"name\" : \"" ++ code ++
              "\",\n  \"records\": \x7b\n" ++
              ",\n".intercalate (List.zipWith (fun label value =>
                "    \"" ++ label ++ "\": " ++ L.fixed2 value) labels record) ++
              "\n  \x7d\x7d") codes data) ++
          "\n\x7d") ∧
      (∀ text : String, jsonEscape text = text ↔ ∀ c ∈ text.toList, needsEscape c = false) ∧
      (generateJsonStr L codes data labels =
          generateJsonStr L (codes.map jsonEscape) data (labels.map jsonEscape) ↔
        (∀ code ∈ codes, ∀ c ∈ code.toList, needsEscape c = false) ∧
          (codes ≠ [] → ∀ label ∈ labels, ∀ c ∈ label.toList, needsEscape c = false)) := by
  have hdoc := generateJsonStr_eq L codes data labels hlen hrec
  have hesc := generateJsonStr_eq L (codes.map jsonEscape) data (labels.map jsonEscape)
    (by simpa using hlen) (by simpa using hrec)
  refine ⟨hdoc, jsonEscape_eq_iff, ?_, ?_⟩
  · intro heq
    rw [hdoc, hesc, Option.some.injEq] at heq
    have hlength := congrArg String.length heq
    refine ⟨fun code hcode c hc => ?_, fun hne label hlabel c hc => ?_⟩
    · by_contra hneeds
      have hlt := documentText_escape_length L codes data labels hlen hrec
        (Or.inl ⟨code, hcode, c, hc, by simpa using hneeds⟩)
      omega
    · by_contra hneeds
      have hlt := documentText_escape_length L codes data labels hlen hrec
        (Or.inr ⟨hne, label, hlabel, c, hc, by simpa using hneeds⟩)
      omega
  · rintro ⟨hcodes, hlabels⟩
    have h1 : codes.map jsonEscape = codes := by
      conv => rhs; rw [← List.map_id codes]
      exact List.map_congr_left (fun code hcode => jsonEscape_clean code (hcodes code hcode))
    cases codes with
    | nil => rw [hdoc, hesc]; rfl
    | cons code rest =>
      have h2 : labels.map jsonEscape = labels := by
        conv => rhs; rw [← List.map_id labels]
        exact List.map_congr_left (fun label hlabel =>
          jsonEscape_clean label (hlabels (List.cons_ne_nil _ _) label hlabel))
      rw [h1, h2]

set_option maxRecDepth 100000 in
theorem codes_and_labels_written_verbatim_witness :
    generateJsonStr ieee ["a\"b"] [[Float32.finite false 0]] ["to\\tal"] =
      some ("\x7b\n" ++
        ",\n".intercalate (List.zipWith (fun code record =>
          "\"" ++ code ++ "\" : \x7b\n  \"name\" : \"" ++ code ++
            "\",\n  \"records\": \x7b\n" ++
            ",\n".intercalate (List.zipWith (fun label value =>
              "    \"" ++ label ++ "\": " ++ ieee.fixed2 value) ["to\\tal"] record) ++
            "\n  \x7d\x7d") ["a\"b"] [[Float32.finite false 0]]) ++
        "\n\x7d") :=
  (codes_and_labels_written_verbatim ieee ["a\"b"] [[Float32.finite false 0]] ["to\\tal"]
    (by decide) (by decide)).1

/-! ## Two decimals -/

theorem roundHalfEven_nearest (num den : Nat) (hden : 0 < den) :
    2 * (roundHalfEven num den * den) ≤ 2 * num + den ∧
      2 * num ≤ 2 * (roundHalfEven num den * den) + den ∧
      ((2 * (roundHalfEven num den * den) = 2 * num + den ∨
          2 * num = 2 * (roundHalfEven num den * den) + den) →
        roundHalfEven num den % 2 = 0) := by
  have hdiv : den * (num / den) + num % den = num := Nat.div_add_mod num den
  have hmod : num % den < den := Nat.mod_lt num hden
  have hq : num / den * den = den * (num / den) := Nat.mul_comm _ _
  have hq1 : (num / den + 1) * den = den * (num / den) + den := by
    rw [Nat.add_mul, Nat.one_mul, hq]
  generalize den * (num / den) = w at hdiv hq hq1
  unfold roundHalfEven
  simp only []
  split
  · rw [hq]
    omega
  · split
    · rw [hq1]
      omega
    · split
      · rw [hq]
        omega
      · rw [hq1]
        omega

set_option maxRecDepth 100000 in
/-- C10, the claim refuted: 0.125 is a float, halfway between 0.12 and 0.13, and it
renders as 0.12, the even neighbour; and the sum of 3e38 and 3e38, which
overflows, renders with no decimals at all. -/
theorem half_renders_to_even :
    Float32.ofLiteral "0.125" = some (Float32.finite false (2 ^ 146)) ∧
      (Float32.ofLiteral "0.125").map ieee.fixed2 = some "0.12" ∧
      (Float32.ofLiteral "0.125").map ieee.fixed2 ≠ some "0.13" ∧
      (Float32.ofLiteral "3e38").map (fun x => ieee.fixed2 (ieee.add x x)) = some "inf" := by
  decide

set_option maxRecDepth 100000 in
/-- C10, amended: every finite value renders in fixed-point notation with its sign,
its integer part, a point and exactly two digits, the number of hundredths
written being the one nearest to the value, a tie going to the even one; so
1234.5 renders as 1234.50, 0 as 0.00 and 0.125 as 0.12.  The serializer writes
this rendering of a value after its label. -/
theorem fixed2_nearest_even (neg : Bool) (mag : Nat) :
    (∃ n : Nat,
      ieee.fixed2 (Float32.finite neg mag) =
        (if neg then "-" else "") ++ Nat.repr (n / 100) ++ "." ++
          Nat.repr (n % 100 / 10) ++ Nat.repr (n % 10) ∧
      (Nat.repr (n % 100 / 10)).length = 1 ∧ (Nat.repr (n % 10)).length = 1 ∧
      2 * (n * 2 ^ 149) ≤ 2 * (mag * 100) + 2 ^ 149 ∧
      2 * (mag * 100) ≤ 2 * (n * 2 ^ 149) + 2 ^ 149 ∧
      ((2 * (n * 2 ^ 149) = 2 * (mag * 100) + 2 ^ 149 ∨
          2 * (mag * 100) = 2 * (n * 2 ^ 149) + 2 ^ 149) → n % 2 = 0)) ∧
    (Float32.ofLiteral "1234.5").map ieee.fixed2 = some "1234.50" ∧
    (Float32.ofLiteral "0").map ieee.fixed2 = some "0.00" ∧
    (Float32.ofLiteral "0.125").map ieee.fixed2 = some "0.12" ∧
    ∀ value : Float32, generateJsonStr ieee ["US"] [[value]] ["total"] =
      some ("\x7b\n\"US\" : \x7b\n  \"name\" : \"US\",\n  \"records\": \x7b\n    \"total\": " ++
        ieee.fixed2 value ++ "\n  \x7d\x7d" ++ "\n\x7d") := by
  have hdigit : ∀ d, d < 10 → (Nat.repr d).length = 1 := by decide
  have hnear := roundHalfEven_nearest (mag * 100) (2 ^ 149) (Nat.pos_pow_of_pos 149 (by decide))
  refine ⟨⟨roundHalfEven (mag * 100) (2 ^ 149), rfl, hdigit _ ?_, hdigit _ ?_, hnear.1,
    hnear.2.1, hnear.2.2⟩, by decide, by decide, by decide, fun value => ?_⟩
  · omega
  · omega
  · rw [generateJsonStr_eq ieee ["US"] [[value]] ["total"] (by simp) (by simp)]
    simp only [documentText, entryText, recordLine, String.intercalate, String.intercalate.go,
      List.zipWith_cons_cons, List.zipWith_nil_left]
    simp [← String.append_assoc]

/-! ## The empty table -/

theorem fillClasses_eq (db : Db) (classes : List String) :
    fillClasses db classes =
      match execClassQuery db classes with
      | none => none
      | some (rc, classes) =>
        match checkDBResponse rc with
        | Step.exit status => some (Step.exit status)
        | Step.ret () => some (Step.ret classes) := rfl

theorem fillCountryData_eq {F : Type} (L : FloatLib F) (db : Db) (p : DataPair F) :
    fillCountryData L db p =
      match execCountryQuery L db p with
      | none => none
      | some (rc, p) =>
        match checkDBResponse rc with
        | Step.exit status => some (Step.exit status)
        | Step.ret () => some (Step.ret p) := rfl

/-- C11: on the table of the columns isocode and Motorway that has no row,
`fillClasses` ends normally and leaves the class list empty, where the claim
has it yield Motorway and total; it is so for every table without rows,
whatever its columns, since the labels are pushed by a callback that runs once
per returned row.  With one row the labels are there. -/
theorem fillClasses_empty_table :
    fillClasses { countrydata := some tableWithoutRows } [] = some (Step.ret []) ∧
      tableWithoutRows.colNames = ["isocode", "Motorway"] ∧
      fillClasses { countrydata := some tableWithEmptyField } [] =
        some (Step.ret ["Motorway", "total"]) ∧
      ∀ (t : Table) (classes : List String), t.rows = [] →
        fillClasses { countrydata := some t } classes = some (Step.ret classes) := by
  refine ⟨by decide, rfl, by decide, ?_⟩
  intro t classes hrows
  simp [fillClasses, selectLimit1, hrows, execRows, checkDBResponse]

/-- C12: with no country, whatever the labels and the records, the text
`generateJson` builds is an opening brace, two newlines and a closing brace,
which is an empty JSON object with no comma and no quote in it; the file gets
this text and a newline. -/
theorem generateJson_no_country {F : Type} (L : FloatLib F) (data : List (List F))
    (labels : List String) :
    generateJsonStr L [] data labels = some "\x7b\n\n\x7d" ∧
      generateJson L [] data labels = some "\x7b\n\n\x7d\n" ∧
      isEmptyObject "\x7b\n\n\x7d" = true ∧
      ',' ∉ "\x7b\n\n\x7d".toList ∧ '"' ∉ "\x7b\n\n\x7d".toList := by
  refine ⟨rfl, rfl, by decide, by decide, by decide⟩

/-! ## The paths of `main` -/

theorem checkDBResponse_ret (rc : Int) : checkDBResponse rc = Step.ret () ↔ rc = SQLITE_OK := by
  unfold checkDBResponse
  by_cases h : rc = SQLITE_OK <;> simp [h]

theorem checkDBResponse_exit (rc : Int) (h : rc ≠ SQLITE_OK) :
    checkDBResponse rc = Step.exit 0 := by
  simp [checkDBResponse, h]

theorem main_cases {F : Type} (L : FloatLib F) (argv : List String)
    (openDb : String → Option Db) (run : Run) (hrun : main L argv openDb = some run) :
    run = { status := 0, report := none, closed := false } ∨
      ∃ path db classes p text, argv[1]? = some path ∧ openDb path = some db ∧
        execClassQuery db [] = some (SQLITE_OK, classes) ∧
        execCountryQuery L db { countries := [], data := [] } = some (SQLITE_OK, p) ∧
        generateJson L p.countries p.data classes = some text ∧
        run = { status := 0, report := some text, closed := true } := by
  match argv, hrun with
  | [], hrun =>
    left
    simpa [main] using hrun.symm
  | [_], hrun =>
    left
    simpa [main] using hrun.symm
  | _ :: path :: _, hrun =>
    simp only [main] at hrun
    cases hopen : openDb path with
    | none =>
      left
      simpa [hopen] using hrun.symm
    | some db =>
      simp only [hopen, fillClasses_eq, fillCountryData_eq] at hrun
      cases hq1 : execClassQuery db [] with
      | none => simp [hq1] at hrun
      | some r1 =>
        obtain ⟨rc1, classes⟩ := r1
        by_cases h1 : rc1 = SQLITE_OK
        · subst h1
          simp only [hq1, (checkDBResponse_ret SQLITE_OK).mpr rfl] at hrun
          cases hq2 : execCountryQuery L db { countries := [], data := [] } with
          | none => simp [hq2] at hrun
          | some r2 =>
            obtain ⟨rc2, p⟩ := r2
            by_cases h2 : rc2 = SQLITE_OK
            · subst h2
              simp only [hq2, (checkDBResponse_ret SQLITE_OK).mpr rfl] at hrun
              cases hgen : generateJson L p.countries p.data classes with
              | none => simp [hgen] at hrun
              | some text =>
                right
                refine ⟨path, db, classes, p, text, by simp, hopen, hq1, hq2, hgen, ?_⟩
                simpa [hgen] using hrun.symm
            · left
              simpa [hq2, checkDBResponse_exit rc2 h2] using hrun.symm
        · left
          simpa [hq1, checkDBResponse_exit rc1 h1] using hrun.symm

theorem main_failure {F : Type} (L : FloatLib F) (argv : List String)
    (openDb : String → Option Db) (why : Failure) (hfail : failureOf L argv openDb = some why) :
    main L argv openDb = some { status := 0, report := none, closed := false } := by
  match argv, hfail with
  | [], _ => rfl
  | [_], _ => rfl
  | _ :: path :: _, hfail =>
    simp only [failureOf] at hfail
    simp only [main]
    cases hopen : openDb path with
    | none => rfl
    | some db =>
      simp only [hopen, fillClasses_eq, fillCountryData_eq] at hfail ⊢
      cases hq1 : execClassQuery db [] with
      | none => simp [hq1] at hfail
      | some r1 =>
        obtain ⟨rc1, classes⟩ := r1
        by_cases h1 : rc1 = SQLITE_OK
        · subst h1
          simp only [hq1, (checkDBResponse_ret SQLITE_OK).mpr rfl] at hfail ⊢
          cases hq2 : execCountryQuery L db { countries := [], data := [] } with
          | none => simp [hq2] at hfail
          | some r2 =>
            obtain ⟨rc2, p⟩ := r2
            by_cases h2 : rc2 = SQLITE_OK
            · simp [hq2, h2] at hfail
            · simp [checkDBResponse_exit rc2 h2]
        · simp [checkDBResponse_exit rc1 h1]

/-- C13: `checkDBResponse` returns normally if and only if the code is `SQLITE_OK`;
a run of `main` that leaves a report had both calls of `sqlite3_exec` return
`SQLITE_OK`, the report being what `generateJson` makes of their results; and a
run in which the schema query or the data query returns another code ends
with no report at all. -/
theorem report_only_after_queries {F : Type} (L : FloatLib F) (argv : List String)
    (openDb : String → Option Db) :
    (∀ rc, checkDBResponse rc = Step.ret () ↔ rc = SQLITE_OK) ∧
      (∀ run text, main L argv openDb = some run → run.report = some text →
        ∃ path db classes p, argv[1]? = some path ∧ openDb path = some db ∧
          execClassQuery db [] = some (SQLITE_OK, classes) ∧
          execCountryQuery L db { countries := [], data := [] } = some (SQLITE_OK, p) ∧
          generateJson L p.countries p.data classes = some text) ∧
      (failureOf L argv openDb = some Failure.schemaQueryFailed →
        main L argv openDb = some { status := 0, report := none, closed := false }) ∧
      (failureOf L argv openDb = some Failure.dataQueryFailed →
        main L argv openDb = some { status := 0, report := none, closed := false }) ∧
      failureOf ieee ["valhalla_build_statistics", "statistics.sqlite"]
          (fun _ => some { countrydata := none }) = some Failure.schemaQueryFailed ∧
      failureOf ieee ["valhalla_build_statistics", "statistics.sqlite"]
          (fun _ => some { countrydata := some tableWithoutIsocode }) =
        some Failure.dataQueryFailed := by
  refine ⟨checkDBResponse_ret, ?_, main_failure L argv openDb _, main_failure L argv openDb _,
    by decide, by decide⟩
  intro run text hrun hreport
  rcases main_cases L argv openDb run hrun with h | ⟨path, db, classes, p, text', h1, h2, h3, h4, h5, h6⟩
  · rw [h] at hreport
    exact absurd hreport (by simp)
  · rw [h6] at hreport
    simp only [Option.some.injEq] at hreport
    subst hreport
    exact ⟨path, db, classes, p, h1, h2, h3, h4, h5⟩

set_option maxRecDepth 100000 in
/-- C14, the claim refuted: a run with no input path, a run whose datastore does
not open, a run whose schema query fails and a run whose data query fails all
end with status 0, which is also the status of a run that writes its report. -/
theorem failure_exits_with_zero :
    failureOf ieee ["valhalla_build_statistics"] (fun _ => none) = some Failure.noInputPath ∧
      (main ieee ["valhalla_build_statistics"] (fun _ => none)).map (fun run => run.status) =
        some 0 ∧
      failureOf ieee ["valhalla_build_statistics", "statistics.sqlite"] (fun _ => none) =
        some Failure.openFailed ∧
      (main ieee ["valhalla_build_statistics", "statistics.sqlite"] (fun _ => none)).map
        (fun run => run.status) = some 0 ∧
      (main ieee ["valhalla_build_statistics", "statistics.sqlite"]
        (fun _ => some { countrydata := none })).map (fun run => run.status) = some 0 ∧
      (main ieee ["valhalla_build_statistics", "statistics.sqlite"]
        (fun _ => some { countrydata := some tableWithoutIsocode })).map
        (fun run => run.status) = some 0 ∧
      failureOf ieee ["valhalla_build_statistics", "statistics.sqlite"]
        (fun _ => some { countrydata := some tableWithEmptyCode }) = none ∧
      (main ieee ["valhalla_build_statistics", "statistics.sqlite"]
        (fun _ => some { countrydata := some tableWithEmptyCode })).map
        (fun run => (run.status, run.report.isSome)) = some (0, true) := by
  decide

/-- C14, amended: a run of `main` that ends because no input path was given, the
datastore failed to open or a query failed terminates with exit status 0 and
no report, and 0 is the status of every run, the successful one included: the
status does not tell a failure from a success. -/
theorem failure_status_is_zero {F : Type} (L : FloatLib F) (argv : List String)
    (openDb : String → Option Db) (why : Failure)
    (hfail : failureOf L argv openDb = some why) :
    main L argv openDb = some { status := 0, report := none, closed := false } ∧
      ∀ (argv' : List String) (openDb' : String → Option Db) (run : Run),
        main L argv' openDb' = some run → run.status = 0 := by
  refine ⟨main_failure L argv openDb why hfail, ?_⟩
  intro argv' openDb' run hrun
  rcases main_cases L argv' openDb' run hrun with h | ⟨_, _, _, _, _, _, _, _, _, _, h⟩ <;>
    rw [h]

theorem failure_status_is_zero_witness :
    main ieee ["valhalla_build_statistics", "statistics.sqlite"] (fun _ => none) =
      some { status := 0, report := none, closed := false } :=
  (failure_status_is_zero ieee ["valhalla_build_statistics", "statistics.sqlite"]
    (fun _ => none) Failure.openFailed rfl).1

set_option maxRecDepth 100000 in
/-- C15: when the database has no table `countrydata` the schema query fails, and
when the table has no column `isocode` the data query fails; in both runs the
connection was opened and `main` ends, through the `exit` of
`checkDBResponse`, without `sqlite3_close`, where the claim has it closed.  It
is so for every run that ends by a failed query; only the run that writes its
report closes the connection. -/
theorem failed_query_leaves_connection_open :
    main ieee ["valhalla_build_statistics", "statistics.sqlite"]
        (fun _ => some { countrydata := none }) =
      some { status := 0, report := none, closed := false } ∧
    main ieee ["valhalla_build_statistics", "statistics.sqlite"]
        (fun _ => some { countrydata := some tableWithoutIsocode }) =
      some { status := 0, report := none, closed := false } ∧
    (main ieee ["valhalla_build_statistics", "statistics.sqlite"]
      (fun _ => some { countrydata := some tableWithEmptyCode })).map
      (fun run => run.closed) = some true ∧
    (∀ (argv : List String) (openDb : String → Option Db),
      failureOf ieee argv openDb = some Failure.schemaQueryFailed ∨
        failureOf ieee argv openDb = some Failure.dataQueryFailed →
      (main ieee argv openDb).map (fun run => run.closed) = some false) ∧
    ∀ (argv : List String) (openDb : String → Option Db) (run : Run),
      main ieee argv openDb = some run → (run.closed = true ↔ run.report.isSome = true) := by
  refine ⟨by decide, by decide, by decide, ?_, ?_⟩
  · intro argv openDb hfail
    rcases hfail with h | h <;> simp [main_failure ieee argv openDb _ h]
  · intro argv openDb run hrun
    rcases main_cases ieee argv openDb run hrun with h | ⟨_, _, _, _, _, _, _, _, _, _, h⟩ <;>
      simp [h]

/-! ## Fields that are not one numeric token -/

theorem tokensAux_fields {F : Type} (L : FloatLib F) (fields : List String)
    (values : List (Option F)) (htok : List.Forall₂ (FieldToken L) fields values)
    (pre : List Char) (fuel : Nat) (hpre : ∀ c ∈ pre, isSpace c = true)
    (hfuel : (pre ++ (lineOf fields).toList).length ≤ fuel) :
    tokensAux L fuel (pre ++ (lineOf fields).toList) = values.filterMap id := by
  induction htok generalizing pre fuel with
  | nil =>
    cases fuel with
    | zero => rfl
    | succ fuel => simp [tokensAux, lineOf, extract_spaces L pre hpre]
  | @cons field value fields values hfield _ ih =>
    have hline : (lineOf (field :: fields)).toList =
        field.toList ++ ' ' :: (lineOf fields).toList := by
      simp [lineOf, String.toList]
    rw [hline] at hfuel ⊢
    cases value with
    | none =>
      have hempty : field = "" := hfield
      subst hempty
      have hpre2 : ∀ c ∈ pre ++ [' '], isSpace c = true := by
        intro c hc
        rcases List.mem_append.mp hc with h | h
        · exact hpre c h
        · simp only [List.mem_singleton] at h
          subst h
          rfl
      have hrest := ih (pre ++ [' ']) fuel hpre2 (by simpa using hfuel)
      simpa using hrest
    | some v =>
      have hone : OneToken L field v := hfield
      have hpos := oneToken_length L field v hone
      simp only [List.length_append, List.length_cons] at hfuel
      cases fuel with
      | zero => omega
      | succ fuel =>
        have hstep : extract L (pre ++ (field.toList ++ ' ' :: (lineOf fields).toList)) =
            some (v, ' ' :: (lineOf fields).toList) := by
          rw [extract_skip L pre _ hpre]
          exact hone _
        have hrest := ih [' '] fuel (by simp [isSpace]) (by
          simp only [List.length_append, List.length_cons, List.length_nil]
          omega)
        simp only [tokensAux, hstep]
        simpa using hrest

theorem tokens_fields {F : Type} (L : FloatLib F) (fields : List String)
    (values : List (Option F)) (htok : List.Forall₂ (FieldToken L) fields values) :
    tokens L (lineOf fields) = values.filterMap id := by
  have h := tokensAux_fields L fields values htok [] (lineOf fields).length (by simp)
    (Nat.le_refl _)
  simpa [tokens] using h

theorem fieldToken_of_oneToken {F : Type} (L : FloatLib F) (fields : List String)
    (values : List F) (htok : List.Forall₂ (OneToken L) fields values) :
    List.Forall₂ (FieldToken L) fields (values.map some) := by
  induction htok with
  | nil => exact List.Forall₂.nil
  | cons h _ ih => exact List.Forall₂.cons h ih

theorem callback_of_fields {F : Type} (L : FloatLib F) (t : Table) (p : DataPair F)
    (code : String) (fields : List String) (values : List F)
    (hrow : (some code :: fields.map some).length = t.colNames.length)
    (htok : tokens L (lineOf fields) = values) :
    countryDataCallback L p (mkRow t (some code :: fields.map some)) =
      some (0, { countries := p.countries ++ [code],
                 data := p.data ++ [values ++ [values.foldl L.add L.zero]] }) := by
  have hcols : t.colNames ≠ [] := by
    intro h
    simp [h] at hrow
  have hdef : rowDefined (mkRow t (some code :: fields.map some)) = true := by
    apply rowDefined_mkRow t _ hcols hrow
    intro v hv
    simp only [List.mem_cons, List.mem_map] at hv
    rcases hv with rfl | ⟨f, _, rfl⟩ <;> simp
  obtain ⟨code', hcode, hcb⟩ := countryDataCallback_eq L p _ hdef
  have hc : code' = code := by
    rw [codeOf_mkRow t _ hcols] at hcode
    simpa using hcode.symm
  subst hc
  rw [hcb]
  simp only [recordOf, fieldsOf_mkRow t _ fields hrow, htok, sumFrom0]

/-- C16: take a row of a code and fields that are each exactly one numeric token,
and put the empty string in the place of one field: the record
`countryDataCallback` appends is the values of the other fields in their order
followed by the sum of those values alone, one element shorter than the record
of the row as it was. -/
theorem empty_field_shortens_record {F : Type} (L : FloatLib F) (t : Table) (p : DataPair F)
    (code : String) (before after : List String) (field : String) (vb va : List F) (v : F)
    (hrow : (some code :: (before ++ field :: after).map some).length = t.colNames.length)
    (hb : List.Forall₂ (OneToken L) before vb) (ha : List.Forall₂ (OneToken L) after va)
    (hf : OneToken L field v) :
    countryDataCallback L p (mkRow t (some code :: (before ++ field :: after).map some)) =
        some (0, { countries := p.countries ++ [code],
                   data := p.data ++ [(vb ++ v :: va) ++ [(vb ++ v :: va).foldl L.add L.zero]] }) ∧
      countryDataCallback L p (mkRow t (some code :: (before ++ "" :: after).map some)) =
        some (0, { countries := p.countries ++ [code],
                   data := p.data ++ [(vb ++ va) ++ [(vb ++ va).foldl L.add L.zero]] }) ∧
      ((vb ++ va) ++ [(vb ++ va).foldl L.add L.zero]).length + 1 =
        ((vb ++ v :: va) ++ [(vb ++ v :: va).foldl L.add L.zero]).length := by
  have hfull : List.Forall₂ (OneToken L) (before ++ field :: after) (vb ++ v :: va) :=
    List.rel_append hb (List.Forall₂.cons hf ha)
  have hgap : List.Forall₂ (FieldToken L) (before ++ "" :: after)
      (vb.map some ++ none :: va.map some) :=
    List.rel_append (fieldToken_of_oneToken L before vb hb)
      (List.Forall₂.cons (by rfl) (fieldToken_of_oneToken L after va ha))
  have hvalues : (vb.map some ++ none :: va.map some).filterMap id = vb ++ va := by
    simp [List.filterMap_append, List.filterMap_map]
  have hrow2 : (some code :: (before ++ "" :: after).map some).length = t.colNames.length := by
    simpa using hrow
  refine ⟨callback_of_fields L t p code _ _ hrow (tokens_line L _ _ hfull),
    callback_of_fields L t p code _ _ hrow2 ?_, ?_⟩
  · rw [tokens_fields L _ _ hgap, hvalues]
  · simp only [List.length_append, List.length_cons, List.length_nil]
    omega

theorem empty_field_shortens_record_witness :
    countryDataCallback ieee { countries := [], data := [] }
        (mkRow tableOfTwoClasses (some "US" :: ([] ++ "" :: ["1.5"]).map some)) =
      some (0, { countries := [] ++ ["US"],
                 data := [] ++
                   [([] ++ [Float32.finite false 1070435769529469910793714477087121352287059968]) ++
                    [([] ++ [Float32.finite false 1070435769529469910793714477087121352287059968]).foldl
                      ieee.add ieee.zero]] }) :=
  (empty_field_shortens_record ieee tableOfTwoClasses { countries := [], data := [] } "US"
    [] ["1.5"] "1.5" [] _ _ rfl List.Forall₂.nil
    (List.Forall₂.cons oneToken_one_and_half List.Forall₂.nil) oneToken_one_and_half).2.1

theorem tokensAux_until_noToken {F : Type} (L : FloatLib F) (before after : List String)
    (bad : String) (vb : List F) (hb : List.Forall₂ (OneToken L) before vb)
    (hbad : NoToken L bad) (pre : List Char) (fuel : Nat)
    (hpre : ∀ c ∈ pre, isSpace c = true)
    (hfuel : (pre ++ (lineOf (before ++ bad :: after)).toList).length ≤ fuel) :
    tokensAux L fuel (pre ++ (lineOf (before ++ bad :: after)).toList) = vb := by
  induction hb generalizing pre fuel with
  | nil =>
    have hline : (lineOf ([] ++ bad :: after)).toList =
        bad.toList ++ ' ' :: (lineOf after).toList := by
      simp [lineOf, String.toList]
    rw [hline]
    cases fuel with
    | zero => rfl
    | succ fuel =>
      simp only [tokensAux]
      rw [extract_skip L pre _ hpre, hbad _]
  | @cons field v fields values hfield _ ih =>
    have hline : (lineOf (field :: fields ++ bad :: after)).toList =
        field.toList ++ ' ' :: (lineOf (fields ++ bad :: after)).toList := by
      simp [lineOf, String.toList]
    have hpos := oneToken_length L field v hfield
    rw [hline] at hfuel ⊢
    simp only [List.length_append, List.length_cons] at hfuel
    cases fuel with
    | zero => omega
    | succ fuel =>
      have hstep : extract L
          (pre ++ (field.toList ++ ' ' :: (lineOf (fields ++ bad :: after)).toList)) =
          some (v, ' ' :: (lineOf (fields ++ bad :: after)).toList) := by
        rw [extract_skip L pre _ hpre]
        exact hfield _
      have hrest := ih [' '] fuel (by simp [isSpace]) (by
        simp only [List.length_append, List.length_cons, List.length_nil]
        omega)
      simp only [tokensAux, hstep]
      simpa using hrest

theorem noToken_ieee (field : String) (c : Char) (cs xtrc : List Char)
    (hfield : field.toList = c :: cs) (hc : isSpace c = false)
    (hscan : ∀ rest, ∃ unread, scanFloat (c :: (cs ++ ' ' :: rest)) = (xtrc, unread))
    (hconv : convertToFloat xtrc = none) : NoToken ieee field := by
  intro rest
  obtain ⟨unread, hu⟩ := hscan rest
  have hnum : ieee.numGet c (cs ++ ' ' :: rest) = none := by
    show ieeeNumGet c (cs ++ ' ' :: rest) = _
    rw [ieeeNumGet_eq c _ xtrc _ hu, hconv]
    rfl
  have hdrop : (c :: (cs ++ ' ' :: rest)).dropWhile isSpace = c :: (cs ++ ' ' :: rest) := by
    simp [List.dropWhile, hc]
  rw [hfield]
  show extract ieee (c :: (cs ++ ' ' :: rest)) = _
  simp only [extract, hdrop, hnum]

theorem noToken_abc : NoToken ieee "abc" :=
  noToken_ieee "abc" 'a' ['b', 'c'] [] rfl (by decide)
    (fun rest => ⟨'a' :: 'b' :: 'c' :: ' ' :: rest, by simp [scanFloat, scanDigits]⟩) (by decide)

theorem noToken_of_startsNoNumber (field : String) (h : startsNoNumber field = true) :
    NoToken ieee field := by
  intro rest
  unfold startsNoNumber at h
  cases hd : field.toList.dropWhile isSpace with
  | nil => simp only [hd, Bool.false_eq_true] at h
  | cons c cs =>
    simp only [hd, Bool.not_eq_true', Bool.or_eq_false_iff, decide_eq_false_iff_not] at h
    obtain ⟨⟨⟨hdigit, hplus⟩, hminus⟩, hpoint⟩ := h
    have hzero : c ≠ '0' := by
      intro h0
      rw [h0] at hdigit
      exact absurd hdigit (by decide)
    have hdrop : (field.toList ++ ' ' :: rest).dropWhile isSpace = c :: (cs ++ ' ' :: rest) := by
      rw [List.dropWhile_append, hd]
      rfl
    have hscan : scanFloat (c :: (cs ++ ' ' :: rest)) = ([], c :: (cs ++ ' ' :: rest)) := by
      simp [scanFloat, scanDigits, hdigit, hplus, hminus, hpoint, hzero]
    have hnum : ieee.numGet c (cs ++ ' ' :: rest) = none := by
      show ieeeNumGet c (cs ++ ' ' :: rest) = _
      rw [ieeeNumGet_eq c _ [] _ hscan]
      rfl
    simp only [extract, hdrop, hnum]

set_option maxRecDepth 100000 in
/-- C17, the claim refuted: in the row of the fields 1.5, abc and 2 the field abc
ends the reading: the record is 1.5 and the total 1.5, and 2, the numeric field
after abc, is in neither; without the field abc the record is 1.5, 2 and the
total 3.5.  A field that starts with a number is another matter: in the row of
1.5, 5km and 2 the field 5km yields the token 5, and the record is 1.5, 5 and
the total 6.5. -/
theorem word_drops_later_fields :
    (countryDataCallback ieee { countries := [], data := [] }
        (mkRow tableWithWord [some "US", some "1.5", some "abc", some "2"])).map
        (fun r => (r.1, r.2.countries, r.2.data.map (fun record => record.map ieee.fixed2))) =
      some (0, ["US"], [["1.50", "1.50"]]) ∧
    (countryDataCallback ieee { countries := [], data := [] }
        (mkRow tableOfTwoClasses [some "US", some "1.5", some "2"])).map
        (fun r => (r.1, r.2.countries, r.2.data.map (fun record => record.map ieee.fixed2))) =
      some (0, ["US"], [["1.50", "2.00", "3.50"]]) ∧
    (countryDataCallback ieee { countries := [], data := [] }
        (mkRow tableWithWord [some "US", some "1.5", some "5km", some "2"])).map
        (fun r => (r.1, r.2.countries, r.2.data.map (fun record => record.map ieee.fixed2))) =
      some (0, ["US"], [["1.50", "5.00", "6.50"]]) := by
  decide

/-- C17, amended: in a row that has a value in every column and no NULL, a
non-key field that does not start as a number (its first character after any
leading white space is not a digit, a sign or a decimal point, as in "abc")
yields no token, the extraction at it fails, and it ends the reading of the
row: when the fields before it are each one numeric token, the record is their
values in order followed by the sum of those values, and no field after it,
numeric or not, contributes to the record or to the total. -/
theorem non_numeric_field_ends_record (t : Table) (p : DataPair Float32) (code : String)
    (before after : List String) (bad : String) (vb : List Float32)
    (hrow : (some code :: (before ++ bad :: after).map some).length = t.colNames.length)
    (hb : List.Forall₂ (OneToken ieee) before vb) (hbad : startsNoNumber bad = true) :
    (∀ rest : List Char, extract ieee (bad.toList ++ ' ' :: rest) = none) ∧
      countryDataCallback ieee p (mkRow t (some code :: (before ++ bad :: after).map some)) =
        some (0, { countries := p.countries ++ [code],
                   data := p.data ++ [vb ++ [vb.foldl ieee.add ieee.zero]] }) := by
  have hno : NoToken ieee bad := noToken_of_startsNoNumber bad hbad
  refine ⟨hno, ?_⟩
  apply callback_of_fields ieee t p code _ _ hrow
  have h := tokensAux_until_noToken ieee before after bad vb hb hno []
    (lineOf (before ++ bad :: after)).length (by simp) (Nat.le_refl _)
  simpa [tokens] using h

theorem non_numeric_field_ends_record_witness :
    (∀ rest : List Char, extract ieee ("abc".toList ++ ' ' :: rest) = none) ∧
      countryDataCallback ieee { countries := [], data := [] }
          (mkRow tableWithWord (some "US" :: (["1.5"] ++ "abc" :: ["2"]).map some)) =
        some (0, { countries := [] ++ ["US"],
                   data := [] ++
                     [[Float32.finite false 1070435769529469910793714477087121352287059968] ++
                      [[Float32.finite false 1070435769529469910793714477087121352287059968].foldl
                        ieee.add ieee.zero]] }) :=
  non_numeric_field_ends_record tableWithWord { countries := [], data := [] } "US"
    ["1.5"] ["2"] "abc" _ rfl (List.Forall₂.cons oneToken_one_and_half List.Forall₂.nil)
    (by decide)

/-! ## Rows with a NULL -/

theorem buildLine_none (cells : List (String × Option String)) (line : String)
    (h : cells.all (fun cell => cell.2.isSome) = false) : buildLine cells line = none := by
  induction cells generalizing line with
  | nil => simp at h
  | cons cell cells ih =>
    obtain ⟨name, value⟩ := cell
    cases value with
    | none => rfl
    | some a =>
      simp only [buildLine]
      apply ih
      simpa using h

theorem countryDataCallback_none_iff {F : Type} (L : FloatLib F) (p : DataPair F) (row : Row) :
    countryDataCallback L p row = none ↔ rowDefined row = false := by
  constructor
  · intro hnone
    cases hdef : rowDefined row with
    | false => rfl
    | true =>
      obtain ⟨code, _, hcb⟩ := countryDataCallback_eq L p row hdef
      rw [hcb] at hnone
      exact Option.noConfusion hnone
  · intro hdef
    match row, hdef with
    | [], _ => rfl
    | (_, none) :: _, _ => rfl
    | (_, some code) :: rest, hdef =>
      have hrest : rest.all (fun cell => cell.2.isSome) = false := by
        simpa [rowDefined] using hdef
      simp [countryDataCallback, buildLine_none rest "" hrest]

set_option maxRecDepth 100000 in
/-- C19: a row whose code is NULL and a row whose numeric field is NULL both pass
the filter of the data query, and `countryDataCallback` is undefined on each
(it makes a `std::string` of the null pointer), where the claim has it append
a code and a record and return 0; the run of `main` is undefined with it.  The
callback is undefined exactly on the rows that have no first cell or a NULL. -/
theorem null_passes_filter_undefined :
    selectWhereIsocode tableWithNullCode = [[("isocode", none), ("Motorway", some "1")]] ∧
      countryDataCallback ieee { countries := [], data := [] }
        [("isocode", none), ("Motorway", some "1")] = none ∧
      selectWhereIsocode tableWithNullField = [[("isocode", some "US"), ("Motorway", none)]] ∧
      countryDataCallback ieee { countries := [], data := [] }
        [("isocode", some "US"), ("Motorway", none)] = none ∧
      main ieee ["valhalla_build_statistics", "statistics.sqlite"]
        (fun _ => some { countrydata := some tableWithNullCode }) = none ∧
      main ieee ["valhalla_build_statistics", "statistics.sqlite"]
        (fun _ => some { countrydata := some tableWithNullField }) = none ∧
      ∀ (p : DataPair Float32) (row : Row),
        countryDataCallback ieee p row = none ↔ rowDefined row = false := by
  refine ⟨by decide, by decide, by decide, by decide, by decide, by decide, ?_⟩
  exact countryDataCallback_none_iff ieee

/-! ## The record as a function of the words of the line -/

theorem takeWhile_word (cs r : List Char) (hcs : ∀ d ∈ cs, isSpace d = false)
    (hr : atWordEnd r = true) : (cs ++ r).takeWhile notSpace = cs := by
  induction cs with
  | nil =>
    cases r with
    | nil => rfl
    | cons c r =>
      have hc : isSpace c = true := hr
      simp [List.takeWhile, notSpace, hc]
  | cons d cs ih =>
    have hd : isSpace d = false := hcs d (List.mem_cons_self _ _)
    simp [List.takeWhile, notSpace, hd, ih (fun e he => hcs e (List.mem_cons_of_mem _ he))]

theorem dropWhile_word (cs r : List Char) (hcs : ∀ d ∈ cs, isSpace d = false)
    (hr : atWordEnd r = true) : (cs ++ r).dropWhile notSpace = r := by
  induction cs with
  | nil =>
    cases r with
    | nil => rfl
    | cons c r =>
      have hc : isSpace c = true := hr
      simp [List.dropWhile, notSpace, hc]
  | cons d cs ih =>
    have hd : isSpace d = false := hcs d (List.mem_cons_self _ _)
    simp [List.dropWhile, notSpace, hd, ih (fun e he => hcs e (List.mem_cons_of_mem _ he))]

theorem atWordEnd_dropWhile (cs : List Char) : atWordEnd (cs.dropWhile notSpace) = true := by
  induction cs with
  | nil => rfl
  | cons d cs ih =>
    cases hd : isSpace d with
    | true => simp [List.dropWhile, notSpace, hd, atWordEnd]
    | false => simpa [List.dropWhile, notSpace, hd] using ih

theorem wordsAux_fuel (n m : Nat) (s : List Char) (hn : s.length ≤ n) (hm : s.length ≤ m) :
    wordsAux n s = wordsAux m s := by
  induction n generalizing m s with
  | zero =>
    have hs : s = [] := List.length_eq_zero.mp (Nat.le_zero.mp hn)
    subst hs
    cases m <;> simp [wordsAux]
  | succ n ih =>
    cases m with
    | zero =>
      have hs : s = [] := List.length_eq_zero.mp (Nat.le_zero.mp hm)
      subst hs
      simp [wordsAux]
    | succ m =>
      simp only [wordsAux]
      have hsub : (s.dropWhile isSpace).length ≤ s.length :=
        (List.dropWhile_sublist isSpace).length_le
      cases hd : s.dropWhile isSpace with
      | nil => rfl
      | cons c cs =>
        have hsub2 : (cs.dropWhile notSpace).length ≤ cs.length :=
          (List.dropWhile_sublist notSpace).length_le
        rw [hd] at hsub
        simp only [List.length_cons] at hsub
        simp only []
        rw [ih m _ (by omega) (by omega)]

theorem words_word_append (c : Char) (cs r : List Char)
    (hw : ∀ d ∈ c :: cs, isSpace d = false) (hr : atWordEnd r = true) :
    words (c :: cs ++ r) = (c :: cs) :: words r := by
  have hc : isSpace c = false := hw c (List.mem_cons_self _ _)
  have hcs : ∀ d ∈ cs, isSpace d = false := fun d hd => hw d (List.mem_cons_of_mem _ hd)
  have hdrop : (c :: (cs ++ r)).dropWhile isSpace = c :: (cs ++ r) := by
    simp [List.dropWhile, hc]
  show wordsAux (c :: (cs ++ r)).length (c :: (cs ++ r)) = _
  simp only [List.length_cons, wordsAux, hdrop, takeWhile_word cs r hcs hr,
    dropWhile_word cs r hcs hr]
  rw [wordsAux_fuel (cs ++ r).length r.length r (by simp) (Nat.le_refl _)]
  rfl

theorem words_dropWhile (s : List Char) : words s = words (s.dropWhile isSpace) := by
  have hsub : (s.dropWhile isSpace).length ≤ s.length :=
    (List.dropWhile_sublist isSpace).length_le
  cases hs : s with
  | nil => rfl
  | cons a s' =>
    have h1 : words (a :: s') = wordsAux ((a :: s').length) (a :: s') := rfl
    rw [h1]
    cases hd : (a :: s').dropWhile isSpace with
    | nil => simp [wordsAux, hd, words]
    | cons c cs =>
      have h2 : words (c :: cs) = wordsAux (c :: cs).length (c :: cs) := rfl
      have hidem : (c :: cs).dropWhile isSpace = c :: cs := by
        rw [← hd, List.dropWhile_idempotent]
      rw [h2]
      simp only [List.length_cons, wordsAux, hd, hidem]
      have hsub2 : (cs.dropWhile notSpace).length ≤ cs.length :=
        (List.dropWhile_sublist notSpace).length_le
      rw [hs, hd] at hsub
      simp only [List.length_cons] at hsub
      rw [wordsAux_fuel s'.length cs.length _ (by omega) (by omega)]

theorem first_word (c : Char) (cs : List Char) (hc : isSpace c = false) :
    c :: cs = (c :: cs.takeWhile notSpace) ++ cs.dropWhile notSpace ∧
      (∀ d ∈ c :: cs.takeWhile notSpace, isSpace d = false) ∧
      atWordEnd (cs.dropWhile notSpace) = true := by
  refine ⟨by simp, ?_, atWordEnd_dropWhile cs⟩
  intro d hd
  rcases List.mem_cons.mp hd with rfl | hmem
  · exact hc
  · have := List.mem_takeWhile_imp hmem
    simpa [notSpace] using this

theorem extract_dropWhile {F : Type} (L : FloatLib F) (s : List Char) :
    extract L s = extract L (s.dropWhile isSpace) := by
  simp only [extract, List.dropWhile_idempotent]

theorem tokensAux_of_spaces {F : Type} (L : FloatLib F) (n : Nat) (s : List Char)
    (hs : s.dropWhile isSpace = []) : tokensAux L n s = [] := by
  cases n with
  | zero => rfl
  | succ n => simp [tokensAux, extract, hs]

theorem extract_word_rest {F : Type} (L : FloatLib F) (c : Char) (cs tl : List Char) (v : F)
    (hc : isSpace c = false) (h : extract L (c :: cs) = some (v, tl)) :
    ∃ k, tl = cs.drop k := by
  have hdrop : (c :: cs).dropWhile isSpace = c :: cs := by
    simp [List.dropWhile, hc]
  simp only [extract, hdrop] at h
  cases hnum : L.numGet c cs with
  | none => simp [hnum] at h
  | some r =>
    obtain ⟨v', unread⟩ := r
    simp only [hnum, Option.some.injEq, Prod.mk.injEq] at h
    exact ⟨_, h.2.symm⟩

theorem words_rest_append (tl r r' : List Char) (htl : ∀ d ∈ tl, isSpace d = false)
    (hr : atWordEnd r = true) (hr' : atWordEnd r' = true) (hwords : words r = words r') :
    words (tl ++ r) = words (tl ++ r') := by
  cases tl with
  | nil => simpa using hwords
  | cons d ds =>
    rw [words_word_append d ds r htl hr, words_word_append d ds r' htl hr', hwords]

theorem tokensAux_words {F : Type} (L : FloatLib F) (hstop : StopsAtSpace L) (n n' : Nat)
    (s s' : List Char) (hn : s.length ≤ n) (hn' : s'.length ≤ n')
    (hwords : words s = words s') : tokensAux L n s = tokensAux L n' s' := by
  induction n generalizing n' s s' with
  | zero =>
    have hs : s = [] := List.length_eq_zero.mp (Nat.le_zero.mp hn)
    subst hs
    cases hd' : s'.dropWhile isSpace with
    | nil => rw [tokensAux_of_spaces L n' s' hd']; rfl
    | cons c' cs' =>
      have hc' : isSpace c' = false := by
        have := List.head_dropWhile_not isSpace s' (by simp [hd'])
        simpa [hd'] using this
      obtain ⟨hsplit, hw, hr⟩ := first_word c' cs' hc'
      rw [words_dropWhile s', hd', hsplit, words_word_append _ _ _ hw hr] at hwords
      exact absurd hwords (by simp [words, wordsAux])
  | succ n ih =>
    have hsub : (s.dropWhile isSpace).length ≤ s.length :=
      (List.dropWhile_sublist isSpace).length_le
    have hsub' : (s'.dropWhile isSpace).length ≤ s'.length :=
      (List.dropWhile_sublist isSpace).length_le
    cases hd : s.dropWhile isSpace with
    | nil =>
      rw [tokensAux_of_spaces L _ s hd]
      cases hd' : s'.dropWhile isSpace with
      | nil => rw [tokensAux_of_spaces L n' s' hd']
      | cons c' cs' =>
        have hc' : isSpace c' = false := by
          have := List.head_dropWhile_not isSpace s' (by simp [hd'])
          simpa [hd'] using this
        obtain ⟨hsplit, hw, hr⟩ := first_word c' cs' hc'
        rw [words_dropWhile s, hd, words_dropWhile s', hd', hsplit,
          words_word_append _ _ _ hw hr] at hwords
        exact absurd hwords (by simp [words, wordsAux])
    | cons c cs0 =>
      have hc : isSpace c = false := by
        have := List.head_dropWhile_not isSpace s (by simp [hd])
        simpa [hd] using this
      obtain ⟨hsplit, hw, hr⟩ := first_word c cs0 hc
      have hws : words s = (c :: cs0.takeWhile notSpace) :: words (cs0.dropWhile notSpace) := by
        rw [words_dropWhile s, hd, hsplit, words_word_append _ _ _ hw hr]
      cases hd' : s'.dropWhile isSpace with
      | nil =>
        rw [hws, words_dropWhile s', hd'] at hwords
        exact absurd hwords (by simp [words, wordsAux])
      | cons c' cs0' =>
        have hc' : isSpace c' = false := by
          have := List.head_dropWhile_not isSpace s' (by simp [hd'])
          simpa [hd'] using this
        obtain ⟨hsplit', hw', hr'⟩ := first_word c' cs0' hc'
        have hws' : words s' =
            (c' :: cs0'.takeWhile notSpace) :: words (cs0'.dropWhile notSpace) := by
          rw [words_dropWhile s', hd', hsplit', words_word_append _ _ _ hw' hr']
        rw [hws, hws'] at hwords
        simp only [List.cons.injEq] at hwords
        obtain ⟨⟨hcc, htake⟩, hrest⟩ := hwords
        subst hcc
        rw [← htake] at hw' hsplit'
        have hx : extract L s = (extract L (c :: cs0.takeWhile notSpace)).map
            (fun res => (res.1, res.2 ++ cs0.dropWhile notSpace)) := by
          rw [extract_dropWhile, hd, hsplit]
          simpa using hstop c _ _ hw hr
        have hx' : extract L s' = (extract L (c :: cs0.takeWhile notSpace)).map
            (fun res => (res.1, res.2 ++ cs0'.dropWhile notSpace)) := by
          rw [extract_dropWhile, hd', hsplit']
          simpa using hstop c _ _ hw' hr'
        rw [hd] at hsub
        rw [hd'] at hsub'
        simp only [List.length_cons] at hsub hsub'
        cases n' with
        | zero => omega
        | succ n' =>
          simp only [tokensAux, hx, hx']
          cases hword : extract L (c :: cs0.takeWhile notSpace) with
          | none => rfl
          | some res =>
            obtain ⟨v, tl⟩ := res
            obtain ⟨k, hk⟩ := extract_word_rest L c _ tl v hc hword
            have htl : ∀ d ∈ tl, isSpace d = false := by
              intro d hdm
              rw [hk] at hdm
              exact hw d (List.mem_cons_of_mem _ (List.mem_of_mem_drop hdm))
            have hlt := extract_lt L _ _ _ hword
            have hlen1 := congrArg List.length hsplit
            have hlen2 := congrArg List.length hsplit'
            simp only [List.length_cons, List.length_append] at hlt hlen1 hlen2
            simp only [Option.map_some']
            rw [ih n' (tl ++ cs0.dropWhile notSpace) (tl ++ cs0'.dropWhile notSpace)
              (by simp only [List.length_append]; omega)
              (by simp only [List.length_append]; omega)
              (words_rest_append tl _ _ htl hr hr' hrest)]

/-! ## The platform's extraction stops at white space -/

theorem space_not_float (c : Char) (h : isSpace c = true) :
    c.isDigit = false ∧ c ≠ '.' ∧ c ≠ 'e' ∧ c ≠ 'E' ∧ c ≠ '+' ∧ c ≠ '-' ∧ c ≠ '0' := by
  simp only [isSpace, Bool.or_eq_true, decide_eq_true_eq] at h
  rcases h with ((((h | h) | h) | h) | h) | h <;> subst h <;> decide

theorem scanDigits_append (s r : List Char) (hr : atWordEnd r = true) :
    ∀ (fm fd fs ae : Bool) (x : List Char),
      scanDigits (s ++ r) fm fd fs ae x =
        ((scanDigits s fm fd fs ae x).1, (scanDigits s fm fd fs ae x).2 ++ r) := by
  induction s with
  | nil =>
    intro fm fd fs ae x
    cases r with
    | nil => simp [scanDigits]
    | cons sp r' =>
      have hsp : isSpace sp = true := hr
      obtain ⟨h1, h2, h3, h4, h5, h6, _⟩ := space_not_float sp hsp
      simp [scanDigits, h1, h2, h3, h4, h5, h6]
  | cons c cs ih =>
    intro fm fd fs ae x
    simp only [List.cons_append, scanDigits]
    split
    · exact ih _ _ _ _ _
    · split
      · exact ih _ _ _ _ _
      · split
        · exact ih _ _ _ _ _
        · split
          · exact ih _ _ _ _ _
          · rfl

theorem scanDigits_length (s : List Char) :
    ∀ (fm fd fs ae : Bool) (x : List Char),
      ∃ hd, s = hd ++ (scanDigits s fm fd fs ae x).2 ∧
        (scanDigits s fm fd fs ae x).1.length = x.length + hd.length := by
  induction s with
  | nil =>
    intro fm fd fs ae x
    exact ⟨[], by simp [scanDigits]⟩
  | cons c cs ih =>
    intro fm fd fs ae x
    simp only [scanDigits]
    split
    · obtain ⟨hd, h1, h2⟩ := ih fm fd fs false (x ++ [c])
      exact ⟨c :: hd, by rw [List.cons_append, ← h1], by
        rw [h2]; simp only [List.length_append, List.length_cons, List.length_nil]; omega⟩
    · split
      · obtain ⟨hd, h1, h2⟩ := ih true fd fs false (x ++ [c])
        exact ⟨c :: hd, by rw [List.cons_append, ← h1], by
          rw [h2]; simp only [List.length_append, List.length_cons, List.length_nil]; omega⟩
      · split
        · obtain ⟨hd, h1, h2⟩ := ih fm true fs false (x ++ ['.'])
          exact ⟨c :: hd, by rw [List.cons_append, ← h1], by
            rw [h2]; simp only [List.length_append, List.length_cons, List.length_nil]; omega⟩
        · split
          · obtain ⟨hd, h1, h2⟩ := ih fm fd true true (x ++ ['e'])
            exact ⟨c :: hd, by rw [List.cons_append, ← h1], by
              rw [h2]; simp only [List.length_append, List.length_cons, List.length_nil]; omega⟩
          · exact ⟨[], by simp⟩

theorem dropWhile_zero_append (s r : List Char) (hr : atWordEnd r = true) :
    (s ++ r).dropWhile (fun c => decide (c = '0')) =
      s.dropWhile (fun c => decide (c = '0')) ++ r := by
  induction s with
  | nil =>
    cases r with
    | nil => rfl
    | cons sp r' =>
      have hsp : isSpace sp = true := hr
      have h0 := (space_not_float sp hsp).2.2.2.2.2.2
      simp [List.dropWhile, h0]
  | cons c cs ih =>
    by_cases hc : c = '0'
    · simp [List.dropWhile, hc, ih]
    · simp [List.dropWhile, hc]

theorem dropWhile_zero_length (s : List Char) :
    ∃ hd, s = hd ++ s.dropWhile (fun c => decide (c = '0')) ∧
      (hd ≠ [] → ∃ tl, s = '0' :: tl) := by
  refine ⟨s.takeWhile (fun c => decide (c = '0')), by simp, ?_⟩
  intro hne
  cases s with
  | nil => simp at hne
  | cons c cs =>
    by_cases hc : c = '0'
    · exact ⟨cs, by rw [hc]⟩
    · simp [List.takeWhile, hc] at hne

theorem scanFloat_eq (c : Char) (cs : List Char) :
    scanFloat (c :: cs) =
      if c = '+' ∨ c = '-' then scanAfterSign [c] cs else scanAfterSign [] (c :: cs) := by
  by_cases h : c = '+' ∨ c = '-'
  · rcases h with h | h <;> subst h <;> rfl
  · have h1 : c ≠ '+' := fun e => h (Or.inl e)
    have h2 : c ≠ '-' := fun e => h (Or.inr e)
    simp only [h, if_false]
    simp [scanFloat, scanAfterSign, h1, h2]

theorem scanAfterSign_append (sign s1 r : List Char) (hr : atWordEnd r = true) :
    scanAfterSign sign (s1 ++ r) =
      ((scanAfterSign sign s1).1, (scanAfterSign sign s1).2 ++ r) := by
  have hzeros : (match s1 ++ r with
      | c :: _ => decide (c = '0')
      | [] => false) = (match s1 with
      | c :: _ => decide (c = '0')
      | [] => false) := by
    cases s1 with
    | cons c cs => rfl
    | nil =>
      cases r with
      | nil => rfl
      | cons sp r' =>
        have hsp : isSpace sp = true := hr
        have h0 := (space_not_float sp hsp).2.2.2.2.2.2
        simp [h0]
  simp only [scanAfterSign, hzeros, dropWhile_zero_append s1 r hr]
  exact scanDigits_append _ r hr _ _ _ _ _

theorem scanAfterSign_length (sign s1 : List Char) :
    ∃ hd, s1 = hd ++ (scanAfterSign sign s1).2 ∧
      (scanAfterSign sign s1).1.length ≤ sign.length + hd.length := by
  simp only [scanAfterSign]
  cases s1 with
  | nil =>
    obtain ⟨hd, h1, h2⟩ := scanDigits_length [] false false false false sign
    exact ⟨hd, by simpa using h1, by simpa using Nat.le_of_eq h2⟩
  | cons c cs =>
    by_cases hc : c = '0'
    · subst hc
      obtain ⟨hd, h1, h2⟩ := scanDigits_length
        (('0' :: cs).dropWhile (fun c => decide (c = '0'))) true false false false
        (sign ++ ['0'])
      have hsplit : '0' :: cs = ('0' :: cs.takeWhile (fun c => decide (c = '0'))) ++
          ('0' :: cs).dropWhile (fun c => decide (c = '0')) := by
        simp [List.dropWhile]
      simp only [decide_True, if_true]
      refine ⟨('0' :: cs.takeWhile (fun c => decide (c = '0'))) ++ hd, ?_, ?_⟩
      · rw [List.append_assoc, ← h1]
        exact hsplit
      · simp only [List.length_append, List.length_cons, List.length_nil] at h2 ⊢
        omega
    · obtain ⟨hd, h1, h2⟩ := scanDigits_length (c :: cs) false false false false sign
      have hdw : (c :: cs).dropWhile (fun c => decide (c = '0')) = c :: cs := by
        simp [List.dropWhile, hc]
      simp only [hc, decide_False, hdw]
      exact ⟨hd, h1, Nat.le_of_eq h2⟩

theorem scanFloat_append (c : Char) (cs r : List Char) (hr : atWordEnd r = true) :
    scanFloat (c :: cs ++ r) = ((scanFloat (c :: cs)).1, (scanFloat (c :: cs)).2 ++ r) := by
  rw [List.cons_append, scanFloat_eq, scanFloat_eq]
  by_cases h : c = '+' ∨ c = '-'
  · simp only [h, if_true]
    exact scanAfterSign_append [c] cs r hr
  · simp only [h, if_false]
    exact scanAfterSign_append [] (c :: cs) r hr

theorem scanFloat_length (c : Char) (cs : List Char) :
    ∃ hd, c :: cs = hd ++ (scanFloat (c :: cs)).2 ∧
      (scanFloat (c :: cs)).1.length ≤ hd.length := by
  rw [scanFloat_eq]
  by_cases h : c = '+' ∨ c = '-'
  · simp only [h, if_true]
    obtain ⟨hd, h1, h2⟩ := scanAfterSign_length [c] cs
    exact ⟨c :: hd, by rw [List.cons_append, ← h1], by
      simp only [List.length_cons, List.length_nil] at h2 ⊢
      omega⟩
  · simp only [h, if_false]
    obtain ⟨hd, h1, h2⟩ := scanAfterSign_length [] (c :: cs)
    exact ⟨hd, h1, by simpa using h2⟩

theorem stopsAtSpace_ieee : StopsAtSpace ieee := by
  intro c cs r hw hr
  have hc : isSpace c = false := hw c (List.mem_cons_self _ _)
  obtain ⟨hd, hsplit, hlen⟩ := scanFloat_length c cs
  have happ : scanFloat (c :: (cs ++ r)) =
      ((scanFloat (c :: cs)).1, (scanFloat (c :: cs)).2 ++ r) := scanFloat_append c cs r hr
  have hn1 : ieee.numGet c cs = (convertToFloat (scanFloat (c :: cs)).1).map
      (fun v => (v, (scanFloat (c :: cs)).2.length)) :=
    ieeeNumGet_eq c cs _ _ rfl
  have hn2 : ieee.numGet c (cs ++ r) = (convertToFloat (scanFloat (c :: cs)).1).map
      (fun v => (v, ((scanFloat (c :: cs)).2 ++ r).length)) :=
    ieeeNumGet_eq c (cs ++ r) _ _ happ
  have hd1 : (c :: cs).dropWhile isSpace = c :: cs := by
    simp [List.dropWhile, hc]
  have hd2 : (c :: (cs ++ r)).dropWhile isSpace = c :: (cs ++ r) := by
    simp [List.dropWhile, hc]
  show extract ieee (c :: (cs ++ r)) = _
  simp only [extract, hd1, hd2, hn1, hn2]
  generalize scanFloat (c :: cs) = res at hsplit hlen
  obtain ⟨xtrc, tl⟩ := res
  simp only at hsplit hlen ⊢
  cases hconv : convertToFloat xtrc with
  | none => rfl
  | some v =>
    have hx : xtrc ≠ [] := by
      intro hnil
      have hempty : convertToFloat [] = none := by decide
      rw [hnil, hempty] at hconv
      exact Option.noConfusion hconv
    have hxpos : 0 < xtrc.length := List.length_pos.mpr hx
    cases hd with
    | nil =>
      simp only [List.length_nil] at hlen
      omega
    | cons c' hd' =>
      simp only [List.cons_append, List.cons.injEq] at hsplit
      obtain ⟨_, hcs⟩ := hsplit
      subst hcs
      have e1 : (hd' ++ tl).length - tl.length = hd'.length := by
        simp only [List.length_append]
        omega
      have e2 : (hd' ++ (tl ++ r)).length - (tl ++ r).length = hd'.length := by
        simp only [List.length_append]
        omega
      simp only [Option.map_some', List.append_assoc, e1, e2, List.drop_left]

set_option maxRecDepth 100000 in
/-- C18: with an extraction that stops at white space, the record
`countryDataCallback` appends depends only on the words of the line made of the
non-key fields: two rows whose lines have the same words get the same record,
wherever the fields begin and end.  So the row of the one field "1 2" and the
row of the two fields "1" and "2" both get the record 1, 2, 3; the first has
three elements for the two labels Motorway and total, and the report pairs
total with 2.00, which is not the sum. -/
theorem record_depends_on_words {F : Type} (L : FloatLib F) (hstop : StopsAtSpace L)
    (t t' : Table) (p : DataPair F) (code code' : String) (fields fields' : List String)
    (hrow : (some code :: fields.map some).length = t.colNames.length)
    (hrow' : (some code' :: fields'.map some).length = t'.colNames.length)
    (hwords : words (lineOf fields).toList = words (lineOf fields').toList) :
    (∃ record,
      countryDataCallback L p (mkRow t (some code :: fields.map some)) =
        some (0, { countries := p.countries ++ [code], data := p.data ++ [record] }) ∧
      countryDataCallback L p (mkRow t' (some code' :: fields'.map some)) =
        some (0, { countries := p.countries ++ [code'], data := p.data ++ [record] })) ∧
    words (lineOf ["1 2"]).toList = words (lineOf ["1", "2"]).toList ∧
    (countryDataCallback ieee { countries := [], data := [] }
        (mkRow tableWithTwoTokens [some "US", some "1 2"])).map
        (fun r => (r.1, r.2.countries, r.2.data.map (fun record => record.map ieee.fixed2))) =
      some (0, ["US"], [["1.00", "2.00", "3.00"]]) ∧
    (countryDataCallback ieee { countries := [], data := [] }
        (mkRow tableOfTwoClasses [some "US", some "1", some "2"])).map
        (fun r => (r.1, r.2.countries, r.2.data.map (fun record => record.map ieee.fixed2))) =
      some (0, ["US"], [["1.00", "2.00", "3.00"]]) ∧
    fillClasses { countrydata := some tableWithTwoTokens } [] =
      some (Step.ret ["Motorway", "total"]) ∧
    (main ieee ["valhalla_build_statistics", "statistics.sqlite"]
        (fun _ => some { countrydata := some tableWithTwoTokens })).bind (fun run => run.report) =
      some ("\x7b\n\"US\" : \x7b\n  \"name\" : \"US\",\n  \"records\": \x7b\n" ++
        "    \"Motorway\": 1.00,\n    \"total\": 2.00\n  \x7d\x7d\n\x7d\n") := by
  refine ⟨⟨tokens L (lineOf fields) ++ [(tokens L (lineOf fields)).foldl L.add L.zero],
    callback_of_fields L t p code fields _ hrow rfl,
    callback_of_fields L t' p code' fields' _ hrow' ?_⟩,
    by decide, by decide, by decide, by decide, by decide⟩
  exact (tokensAux_words L hstop _ _ _ _ (Nat.le_refl _) (Nat.le_refl _) hwords).symm

set_option maxRecDepth 100000 in
theorem record_depends_on_words_witness :
    ∃ record,
      countryDataCallback ieee { countries := [], data := [] }
          (mkRow tableWithTwoTokens (some "US" :: ["1 2"].map some)) =
        some (0, { countries := [] ++ ["US"], data := [] ++ [record] }) ∧
      countryDataCallback ieee { countries := [], data := [] }
          (mkRow tableOfTwoClasses (some "US" :: ["1", "2"].map some)) =
        some (0, { countries := [] ++ ["US"], data := [] ++ [record] }) :=
  (record_depends_on_words ieee stopsAtSpace_ieee tableWithTwoTokens tableOfTwoClasses
    { countries := [], data := [] } "US" "US" ["1 2"] ["1", "2"] rfl rfl (by decide)).1

end Valhalla
